import Mathlib

/-!
# FileSystem: a shallow embedding of the FAT-style image tools

The four programs `diskinfo`, `disklist`, `diskget` and `diskput` work on one
image file through `fseek`/`fread`/`fwrite`.  The image is modelled as the list
of its bytes; every function of the C sources that the properties below talk
about is translated to a function on that list.

Conventions of the embedding.

* A byte is a `Nat` below 256; an image is a `List Nat`.
* `readAt img pos n` is `fseek(fp,pos,SEEK_SET); fread(buf,n,1,fp)`: it gives
  `none` when fewer than `n` bytes are left (the call returns 0 and sets the
  end-of-file indicator).
* `writeAt img pos data` is `fseek(fp,pos,SEEK_SET); fwrite(data,...)` on a
  stream opened with `"rb+"`: writing past the end extends the file, a gap is
  filled with zero bytes.
* C integers are `Nat`; where the source computes in `uint32_t` the result is
  reduced modulo `2^32`.  `off_t` and `size_t` are 64 bit wide and the values
  that reach them stay far below `2^64` (a block size has 16 bits, every other
  quantity 32), so they are computed exactly.
* A `while` loop that may run forever gets a fuel argument; the entry points
  fix the fuel to a bound after which the loop provably cannot stop any more
  (`loopBound`), so that `none` stands for a run that does not return.
* The host is little-endian (`ntohl` swaps bytes).  This matters at one place
  only: an unchecked `fread` of a FAT link that fails leaves the old value of
  the variable in memory, and the following `ntohl` swaps it.
-/

namespace FileSystem

/-- An image file: the list of its bytes. -/
abbrev Image := List Nat

/-- The constant `FAT_EOF` of the sources. -/
def FAT_EOF : Nat := 0xFFFFFFFF

/-- The size of `dir_entry_t` (packed): 1+4+4+4+7+7+31+6 bytes. -/
def DIR_ENTRY_SIZE : Nat := 64

/-- The number of values of a `uint32_t`. -/
def U32 : Nat := 4294967296

/-- A loop whose whole state is one `uint32_t` and that has not stopped after
`2^32` rounds has repeated a state and never stops. -/
def loopBound : Nat := 4294967297

/-- The value of a big-endian byte string (`ntohs`, `ntohl` on the bytes read
from the image). -/
def beVal (bytes : List Nat) : Nat :=
  bytes.foldl (fun acc b => acc * 256 + b) 0

/-- The four bytes `htonl v` leaves in memory: `v` in big-endian order. -/
def htonl (v : Nat) : List Nat :=
  [v / 16777216 % 256, v / 65536 % 256, v / 256 % 256, v % 256]

/-- The four bytes of a `uint32_t` variable in the memory of the
(little-endian) host. -/
def hostBytes (v : Nat) : List Nat :=
  [v % 256, v / 256 % 256, v / 65536 % 256, v / 16777216 % 256]

/-- Positioned checked read: `fseek` to `pos`, then `fread` of one element of
`n` bytes; `none` when the element is not completely inside the file. -/
def readAt (img : Image) (pos n : Nat) : Option (List Nat) :=
  if pos + n ≤ img.length then some ((img.drop pos).take n) else none

/-- Positioned write: `fseek` to `pos`, then `fwrite` of `data`.  Nothing
happens for empty data; a write behind the end of the file extends it, the gap
reads as zero. -/
def writeAt (img : Image) (pos : Nat) (data : List Nat) : Image :=
  if data.isEmpty then img
  else img.take pos ++ List.replicate (pos - img.length) 0 ++ data
        ++ img.drop (pos + data.length)

/-- The FAT link of block `cur` as the chain walks read it:
`fseek(fp, fat_start*block_size + cur*4); fread(&cur,4,1,fp); cur = ntohl(cur)`.
The result of `fread` is not checked: the bytes that could be read replace the
first bytes of the variable, the others keep the old value. -/
def read_link (img : Image) (fat_start block_size cur : Nat) : Nat :=
  let got := (img.drop (fat_start * block_size + cur * 4)).take 4
  beVal (got ++ (hostBytes cur).drop got.length)

/-! ## diskput.c: `allocate_block` -/

/-- What the inner `for` loop of `allocate_block` ends with. -/
inductive Scan where
  /-- An entry that reads as 0 was found at position `i` of the block. -/
  | found (i : Nat)
  /-- Function `fread` failed: the end-of-file indicator is set. -/
  | eof
  /-- All `block_entries` entries were read and none is 0. -/
  | done
  deriving DecidableEq, Repr

/-- The inner loop of `allocate_block`: `n` more entries are read one after
the other, the next one is entry `i` of the block that starts at `fat_off`. -/
def scan_entries (img : Image) (fat_off : Nat) : Nat → Nat → Scan
  | _, 0 => Scan.done
  | i, n + 1 =>
    match readAt img (fat_off + 4 * i) 4 with
    | none => Scan.eof
    | some w =>
      if beVal w = 0 then Scan.found i
      else scan_entries img fat_off (i + 1) n

/-- The outer loop of `allocate_block`, from block counter `b` on.  The result
is the returned block number and the image after the call. -/
def allocate_block_loop (img : Image) (fat_start block_size : Nat) :
    Nat → Nat → Option (Nat × Image)
  | 0, _ => none
  | fuel + 1, b =>
    let fat_off := fat_start * block_size + (b * block_size) % U32
    match scan_entries img fat_off 0 (block_size / 4) with
    | Scan.found i =>
      some ((b * (block_size / 4) + i) % U32, writeAt img (fat_off + 4) (htonl FAT_EOF))
    | Scan.eof => some (0, img)
    | Scan.done => allocate_block_loop img fat_start block_size fuel ((b + 1) % U32)

/-- Function `allocate_block(fp, fat_start, block_size)`.  The image does not
change before the function returns, so the state of the outer loop is the
counter `b` alone and `2^32` rounds decide whether it returns. -/
def allocate_block (img : Image) (fat_start block_size : Nat) : Option (Nat × Image) :=
  allocate_block_loop img fat_start block_size loopBound 0

/-! ## Directory entries

Structure `dir_entry_t` is packed: `status` is byte 0, `starting_block` bytes 1-4,
`block_count` bytes 5-8, `size` bytes 9-12, `created` bytes 13-19, `modified`
bytes 20-26, `name` bytes 27-57 and `unused` bytes 58-63.  An entry is handled
as the list of its 64 bytes; the multi-byte fields hold big-endian values. -/

/-- Field `status` of an entry. -/
def entry_status (e : List Nat) : Nat := e.headD 0

/-- Field `starting_block`, after `ntohl`. -/
def entry_starting_block (e : List Nat) : Nat := beVal ((e.drop 1).take 4)

/-- Field `block_count`, after `ntohl`. -/
def entry_block_count (e : List Nat) : Nat := beVal ((e.drop 5).take 4)

/-- Field `size`, after `ntohl`. -/
def entry_size (e : List Nat) : Nat := beVal ((e.drop 9).take 4)

/-- Field `name`: 31 bytes. -/
def entry_name (e : List Nat) : List Nat := (e.drop 27).take 31

/-- The string a `char` buffer holds for `strcmp`: the bytes before the first
zero byte. -/
def cstr (buf : List Nat) : List Nat := buf.takeWhile (fun c => c != 0)

/-- The trimming loop of `find_subdir`, on the buffer read backwards: from
`j = 30` down, a byte that is `'\0'` or `' '` is set to `'\0'`; the first other
byte ends the loop. -/
def trim_rev : List Nat → List Nat
  | [] => []
  | c :: rest => if c = 0 ∨ c = 32 then 0 :: trim_rev rest else c :: rest

/-- The buffer `name_buf` of `find_subdir` after the trimming loop: the 31
bytes of the name, trimmed, and the terminator `name_buf[31]`. -/
def trimmed_name_buf (name : List Nat) : List Nat :=
  (trim_rev name.reverse).reverse ++ [0]

/-- The test `find_subdir` makes on an occupied entry: directory bit set and
`strcmp(name_buf,target) == 0`. -/
def subdir_match (e target : List Nat) : Bool :=
  (entry_status e &&& 4 != 0) && (cstr (trimmed_name_buf (entry_name e)) == target)

/-! ## `find_subdir` (diskget.c, disklist.c, diskput.c: the three copies agree) -/

/-- The loop of `find_subdir`: `n` more entries are read one after the other
from `offset` on, the next one is entry `i`. -/
def find_subdir_loop (img : Image) (offset : Nat) (target : List Nat) :
    Nat → Nat → Option (Nat × Nat)
  | _, 0 => none
  | i, n + 1 =>
    match readAt img (offset + DIR_ENTRY_SIZE * i) DIR_ENTRY_SIZE with
    | none => none
    | some e =>
      if entry_status e = 0 then find_subdir_loop img offset target (i + 1) n
      else if subdir_match e target then
        some (entry_starting_block e, entry_block_count e)
      else find_subdir_loop img offset target (i + 1) n

/-- Function `find_subdir(fp, start_block, block_count, block_size, target,
&out_start, &out_blocks)`: `some (out_start, out_blocks)` for the return value
1, `none` for 0.  The parameter `block_size` is a `uint16_t` while the callers
hold the block size in a `uint32_t`: the argument is converted. -/
def find_subdir (img : Image) (start_block block_count block_size : Nat)
    (target : List Nat) : Option (Nat × Nat) :=
  find_subdir_loop img (start_block * (block_size % 65536)) target 0
    (block_count * (block_size % 65536) / DIR_ENTRY_SIZE)

/-! ## `resolve_path` in lookup mode (diskget.c, disklist.c) -/

/-- One call of `strtok(.., "/")` on the rest `s` of the string: leading
slashes are skipped; at the end of the string no token is left; otherwise the
token runs to the next slash, and the scan resumes behind that slash. -/
def strtok (s : List Nat) : Option (List Nat × List Nat) :=
  let s1 := s.dropWhile (fun c => c == 47)
  if s1.isEmpty then none
  else some (s1.takeWhile (fun c => c != 47), (s1.dropWhile (fun c => c != 47)).drop 1)

/-- The statement `if (path[0] == '/') path++;` at the head of `resolve_path`. -/
def skip_leading_slash (path : List Nat) : List Nat :=
  match path with
  | 47 :: rest => rest
  | p => p

/-- The `while (token)` loop of the lookup-mode `resolve_path`; `s` is what
`strtok` has not consumed yet. -/
def resolve_path_loop (img : Image) (block_size : Nat) :
    Nat → List Nat → Nat → Nat → Option (Nat × Nat)
  | 0, _, _, _ => none
  | fuel + 1, s, current_start, current_blocks =>
    match strtok s with
    | none => some (current_start, current_blocks)
    | some (token, rest) =>
      match find_subdir img current_start current_blocks block_size token with
      | none => none
      | some (sub_start, sub_blocks) =>
        resolve_path_loop img block_size fuel rest sub_start sub_blocks

/-- Function `resolve_path` of diskget.c and disklist.c: `some (out_start,
out_blocks)` for the return value 1, `none` for 0.  Every round consumes at
least one byte of the path, so `length + 1` rounds are enough. -/
def resolve_path (img : Image) (root_start root_blocks block_size : Nat)
    (path : List Nat) : Option (Nat × Nat) :=
  resolve_path_loop img block_size (path.length + 1) (skip_leading_slash path)
    root_start root_blocks

/-! ## `find_file` (diskget.c, diskput.c: the two copies agree) -/

/-- The buffer `name_buf` of `find_file`: `strncpy(name_buf,entry.name,31)`
copies the bytes before the first zero byte and fills up with zero bytes;
`name_buf[31]` is the terminator.  Nothing is trimmed. -/
def copied_name_buf (name : List Nat) : List Nat :=
  cstr (name.take 31) ++ List.replicate (32 - (cstr (name.take 31)).length) 0

/-- The test `find_file` makes on an occupied entry: file bit set and
`!strcmp(name_buf,filename)`. -/
def file_match (e filename : List Nat) : Bool :=
  (entry_status e &&& 2 != 0) && (cstr (copied_name_buf (entry_name e)) == filename)

/-- The inner `for` loop of `find_file` over the entries of the block at
`offset`: the matching entry, if the loop returns one. -/
def find_file_block (img : Image) (offset : Nat) (filename : List Nat) :
    Nat → Nat → Option (List Nat)
  | _, 0 => none
  | i, n + 1 =>
    match readAt img (offset + DIR_ENTRY_SIZE * i) DIR_ENTRY_SIZE with
    | none => none
    | some e =>
      if entry_status e = 0 then find_file_block img offset filename (i + 1) n
      else if file_match e filename then some e
      else find_file_block img offset filename (i + 1) n

/-- The `while (current != FAT_EOF)` loop of `find_file`.  Outer `none`: out of
fuel; `some none`: return value 0; `some (some e)`: return value 1 with
`*out_entry = e`. -/
def find_file_loop (img : Image) (fat_start block_size : Nat) (filename : List Nat) :
    Nat → Nat → Option (Option (List Nat))
  | 0, _ => none
  | fuel + 1, current =>
    if current = FAT_EOF then some none
    else
      match find_file_block img (current * block_size) filename 0
          (block_size / DIR_ENTRY_SIZE) with
      | some e => some (some e)
      | none =>
        find_file_loop img fat_start block_size filename fuel
          (read_link img fat_start block_size current)

/-- Function `find_file(fp, start, blocks, fat_start, block_size, filename,
&out_entry)`; the argument `blocks` is not used by the function. -/
def find_file (img : Image) (start fat_start block_size : Nat) (filename : List Nat) :
    Option (Option (List Nat)) :=
  find_file_loop img fat_start block_size filename loopBound start

/-! ## `copy_file` (diskget.c) -/

/-- The `while (current != FAT_EOF && remaining > 0)` loop of `copy_file`; `out`
is what has been written to the output file so far.  The buffer comes fresh
from `malloc` in every round; the bytes a short `fread` leaves untouched are
indeterminate in C and are taken as zero here. -/
def copy_file_loop (img : Image) (fat_start block_size : Nat) :
    Nat → Nat → Nat → List Nat → Option (List Nat)
  | 0, _, _, _ => none
  | fuel + 1, current, remaining, out =>
    if current = FAT_EOF ∨ remaining = 0 then some out
    else
      let to_read := if remaining < block_size then remaining else block_size
      let got := (img.drop (current * block_size)).take to_read
      let buf := got ++ List.replicate (to_read - got.length) 0
      copy_file_loop img fat_start block_size fuel
        (read_link img fat_start block_size current) (remaining - to_read) (out ++ buf)

/-- Function `copy_file(fp, fat_start, block_size, entry, filename)`: the
bytes of the output file.  With a positive block size `remaining`, a
`uint32_t`, falls in every round; with block size 0 the state is `current`
alone. -/
def copy_file (img : Image) (fat_start block_size : Nat) (entry : List Nat) :
    Option (List Nat) :=
  copy_file_loop img fat_start block_size loopBound
    (entry_starting_block entry) (entry_size entry) []

/-! ## diskput.c: `init_directory`, `write_entry`, `fill_timestamp` -/

/-- Function `init_directory(fp, block_num, block_size)`: `block_size/64` empty
entries are written one after the other from the start of the block. -/
def init_directory (img : Image) (block_num block_size : Nat) : Image :=
  writeAt img (block_num * block_size)
    (List.replicate (block_size / DIR_ENTRY_SIZE * DIR_ENTRY_SIZE) 0)

/-- The inner `for` loop of `write_entry` over the slots of the block at
`offset`: the image after the entry was written into the first slot with
status 0, `none` when the loop ends without writing. -/
def write_entry_block (img : Image) (offset : Nat) (entry : List Nat) :
    Nat → Nat → Option Image
  | _, 0 => none
  | i, n + 1 =>
    match readAt img (offset + i * DIR_ENTRY_SIZE) DIR_ENTRY_SIZE with
    | none => none
    | some current =>
      if entry_status current = 0 then
        some (writeAt img (offset + i * DIR_ENTRY_SIZE) entry)
      else write_entry_block img offset entry (i + 1) n

/-- The `while (current_block != FAT_EOF)` loop of `write_entry`.  The result
is the image after the `return 1` inside the loop (`Sum.inl`), or `last_block`
when the loop is left (`Sum.inr`). -/
def write_entry_walk (img : Image) (fat_start block_size : Nat) (entry : List Nat) :
    Nat → Nat → Nat → Option (Image ⊕ Nat)
  | 0, _, _ => none
  | fuel + 1, current_block, last_block =>
    if current_block = FAT_EOF then some (Sum.inr last_block)
    else
      match write_entry_block img (current_block * block_size) entry 0
          (block_size / DIR_ENTRY_SIZE) with
      | some img1 => some (Sum.inl img1)
      | none =>
        write_entry_walk img fat_start block_size entry fuel
          (read_link img fat_start block_size current_block) current_block

/-- Function `write_entry(fp, dir_start, block_size, fat_start, entry)`: the
return value and the image after the call. -/
def write_entry (img : Image) (dir_start block_size fat_start : Nat) (entry : List Nat) :
    Option (Nat × Image) :=
  match write_entry_walk img fat_start block_size entry loopBound dir_start dir_start with
  | none => none
  | some (Sum.inl img1) => some (1, img1)
  | some (Sum.inr last_block) =>
    match allocate_block img fat_start block_size with
    | none => none
    | some (new_block, img1) =>
      if new_block = 0 then some (0, img1)
      else
        let img2 := writeAt img1 (fat_start * block_size + last_block * 4) (htonl new_block)
        let img3 := writeAt img2 (fat_start * block_size + new_block * 4) (htonl FAT_EOF)
        let img4 := init_directory img3 new_block block_size
        some (1, writeAt img4 (new_block * block_size) entry)

/-- The fields of `struct tm` that `fill_timestamp` uses: what `localtime`
gives for the time of the call. -/
structure Tm where
  tm_year : Nat
  tm_mon : Nat
  tm_mday : Nat
  tm_hour : Nat
  tm_min : Nat
  tm_sec : Nat
  deriving DecidableEq, Repr

/-- Function `fill_timestamp`: the seven bytes it stores in `created`. -/
def fill_timestamp (now : Tm) : List Nat :=
  let year := (now.tm_year + 1900) % 65536
  [year / 256 % 256, year % 256, (now.tm_mon + 1) % 256, now.tm_mday % 256,
   now.tm_hour % 256, now.tm_min % 256, now.tm_sec % 256]

/-- Field `name` after `strncpy(entry.name, s, sizeof(entry.name)-1)` into a
zeroed entry: at most 30 bytes of `s`, then zero bytes. -/
def name_field (s : List Nat) : List Nat :=
  s.take 30 ++ List.replicate (31 - (s.take 30).length) 0

/-- The 64 bytes of an entry built from `dir_entry_t e = {0}` by setting
`status`, `starting_block`, `block_count`, `size` (each through `htonl`),
`name` and the creation time. -/
def make_entry (status starting_block block_count size : Nat) (name : List Nat)
    (now : Tm) : List Nat :=
  [status % 256] ++ htonl starting_block ++ htonl block_count ++ htonl size
    ++ fill_timestamp now ++ List.replicate 7 0 ++ name_field name ++ List.replicate 6 0

/-! ## diskput.c: `resolve_path` in create mode -/

/-- The `while (token)` loop of the create-mode `resolve_path`.  On a miss the
block returned by `allocate_block` is used without a test, the result of
`write_entry` is dropped.  The result is the image and the pair
`(current_start, current_blocks)` at the end of the loop. -/
def resolve_path_create_loop (block_size fat_start : Nat) (now : Tm) :
    Nat → Image → List Nat → Nat → Nat → Option (Image × Nat × Nat)
  | 0, _, _, _, _ => none
  | fuel + 1, img, s, current_start, current_blocks =>
    match strtok s with
    | none => some (img, current_start, current_blocks)
    | some (token, rest) =>
      match find_subdir img current_start current_blocks block_size token with
      | some (sub_start, sub_blocks) =>
        resolve_path_create_loop block_size fat_start now fuel img rest sub_start sub_blocks
      | none =>
        match allocate_block img fat_start block_size with
        | none => none
        | some (sub_start, img1) =>
          let img2 := init_directory img1 sub_start block_size
          let new_entry := make_entry 4 sub_start 1 0 token now
          match write_entry img2 current_start block_size fat_start new_entry with
          | none => none
          | some (_, img3) =>
            resolve_path_create_loop block_size fat_start now fuel img3 rest sub_start 1

/-- Function `resolve_path` of diskput.c.  It returns 1 whenever it returns
(`strdup` is taken to succeed); `none` stands for a call of `allocate_block`
or `write_entry` that does not return. -/
def resolve_path_create (img : Image) (root_start root_blocks block_size : Nat)
    (path : List Nat) (fat_start : Nat) (now : Tm) : Option (Image × Nat × Nat) :=
  resolve_path_create_loop block_size fat_start now (path.length + 1) img
    (skip_leading_slash path) root_start root_blocks

/-! ## diskput.c: `allocate_fat`, `write_file` -/

/-- The `for` loop of `allocate_fat` with `n` rounds to go.  The result is
`Sum.inl` of the image at the `return 0` inside the loop, or `Sum.inr` of the
image, `first_block` and `prev_block` at the end of the loop. -/
def allocate_fat_loop (fat_start block_size : Nat) :
    Nat → Image → Nat → Nat → Option (Image ⊕ (Image × Nat × Nat))
  | 0, img, first_block, prev_block => some (Sum.inr (img, first_block, prev_block))
  | n + 1, img, first_block, prev_block =>
    match allocate_block img fat_start block_size with
    | none => none
    | some (free_block, img1) =>
      if free_block = 0 then some (Sum.inl img1)
      else
        let first1 := if first_block = 0 then free_block else first_block
        let img2 :=
          if prev_block ≠ 0 then
            writeAt img1 (fat_start * block_size + prev_block * 4) (htonl free_block)
          else img1
        allocate_fat_loop fat_start block_size n img2 first1 free_block

/-- Function `allocate_fat(fp, fat_start, block_size, filesize)`: the returned
first block and the image after the call.  A block size of 0 makes the
division trap: no result. -/
def allocate_fat (img : Image) (fat_start block_size filesize : Nat) :
    Option (Nat × Image) :=
  if block_size = 0 then none
  else
    let blocks_needed := (filesize + block_size - 1) / block_size % U32
    match allocate_fat_loop fat_start block_size blocks_needed img 0 0 with
    | none => none
    | some (Sum.inl img1) => some (0, img1)
    | some (Sum.inr (img1, first_block, prev_block)) =>
      some (first_block,
        writeAt img1 (fat_start * block_size + prev_block * 4) (htonl FAT_EOF))

/-- The `while (current != FAT_EOF && remaining > 0)` loop of `write_file`;
`src` is what has not been read from the source file yet.  In `main` the
argument `filesize` is the length of the source file, so that every `fread`
from it is complete. -/
def write_file_loop (fat_start block_size : Nat) :
    Nat → Image → List Nat → Nat → Nat → Option Image
  | 0, _, _, _, _ => none
  | fuel + 1, img, src, current, remaining =>
    if current = FAT_EOF ∨ remaining = 0 then some img
    else
      let to_read := if remaining < block_size then remaining else block_size
      let img1 := writeAt img (current * block_size) (src.take to_read)
      write_file_loop fat_start block_size fuel img1 (src.drop to_read)
        (read_link img1 fat_start block_size current) (remaining - to_read)

/-- Function `write_file(fp, src, block_size, first_block, filesize,
fat_start)`.  With a positive block size `remaining` falls in every round;
with block size 0 nothing is written and the state is `current` alone. -/
def write_file (img : Image) (src : List Nat) (block_size first_block filesize
    fat_start : Nat) : Option Image :=
  write_file_loop fat_start block_size (filesize + loopBound) img src first_block filesize

/-! ## The superblock and the two front ends `diskput` and `diskget` -/

/-- Structure `super_block_t` after the conversion to host order. -/
structure SuperBlock where
  block_size : Nat
  block_count : Nat
  fat_start : Nat
  fat_blocks : Nat
  root_start : Nat
  root_blocks : Nat
  deriving DecidableEq, Repr

/-- The superblock as every `main` loads it: 22 bytes read at offset 8 into the
packed structure, then `ntohs`/`ntohl` on each field.  The result of `fread` is
not checked and the structure comes from `malloc`: for an image of less than
30 bytes the fields are indeterminate, which is `none` here. -/
def load_super_block (img : Image) : Option SuperBlock :=
  match readAt img 8 22 with
  | none => none
  | some b =>
    some { block_size := beVal (b.take 2)
           block_count := beVal ((b.drop 2).take 4)
           fat_start := beVal ((b.drop 6).take 4)
           fat_blocks := beVal ((b.drop 10).take 4)
           root_start := beVal ((b.drop 14).take 4)
           root_blocks := beVal ((b.drop 18).take 4) }

/-- The split of the path argument in `main` of diskget.c and diskput.c:
`strrchr(path_copy,'/')` finds the last slash; with one, `dirpath` is what
stands before it and `filename` what follows; without, `dirpath` is `"/"`. -/
def split_path (path : List Nat) : List Nat × List Nat :=
  if path.contains 47 then
    (((path.reverse.dropWhile (fun c => c != 47)).drop 1).reverse,
      (path.reverse.takeWhile (fun c => c != 47)).reverse)
  else ([47], path)

/-- Function `main` of diskput.c for an image and a source file that can be
opened: the image after the run.  Result `none`: no superblock, or a call that
does not return. -/
def diskput (img : Image) (src : List Nat) (dest : List Nat) (now : Tm) : Option Image :=
  match load_super_block img with
  | none => none
  | some sb =>
    let (dirpath, filename) := split_path dest
    match resolve_path_create img sb.root_start sb.root_blocks sb.block_size dirpath
        sb.fat_start now with
    | none => none
    | some (img1, dir_start, _) =>
      let filesize := src.length
      match allocate_fat img1 sb.fat_start sb.block_size filesize with
      | none => none
      | some (first_block, img2) =>
        match write_file img2 src sb.block_size first_block filesize sb.fat_start with
        | none => none
        | some img3 =>
          let entry := make_entry 2 first_block
            ((filesize + sb.block_size - 1) / sb.block_size) filesize filename now
          match write_entry img3 dir_start sb.block_size sb.fat_start entry with
          | none => none
          | some (_, img4) => some img4

/-- How a run of diskget ends. -/
inductive GetResult where
  /-- The message "Requested file ... not found" and `exit(1)`; function
  `copy_file` is not reached, no output file exists. -/
  | not_found
  /-- Function `copy_file` wrote these bytes to the output file. -/
  | copied (out : List Nat)
  deriving DecidableEq, Repr

/-- Function `main` of diskget.c for an image that can be opened.  Result
`none`: no superblock, or a call that does not return. -/
def diskget (img : Image) (path : List Nat) : Option GetResult :=
  match load_super_block img with
  | none => none
  | some sb =>
    let (dirpath, filename) := split_path path
    match resolve_path img sb.root_start sb.root_blocks sb.block_size dirpath with
    | none => some GetResult.not_found
    | some (dir_start, _) =>
      match find_file img dir_start sb.fat_start sb.block_size filename with
      | none => none
      | some none => some GetResult.not_found
      | some (some entry) =>
        match copy_file img sb.fat_start sb.block_size entry with
        | none => none
        | some out => some (GetResult.copied out)

/-! ## disklist.c: `list_directory` -/

/-- What one call of `printf` in `list_directory` prints for an entry: the
type letter (`'F'` when the file bit is set, `'D'` otherwise), the size, the
name up to its first zero byte, and the seven bytes of the creation time that
`format_time` formats. -/
structure ListLine where
  type : Nat
  size : Nat
  name : List Nat
  created : List Nat
  deriving DecidableEq, Repr

/-- The line `list_directory` prints for the occupied entry `e`. -/
def list_line (e : List Nat) : ListLine :=
  { type := if entry_status e &&& 2 != 0 then 70 else 68
    size := entry_size e
    name := cstr (entry_name e ++ [0])
    created := (e.drop 13).take 7 }

/-- The inner `for` loop of `list_directory` over the entries of the block at
`offset`: the lines it prints. -/
def list_block (img : Image) (offset : Nat) : Nat → Nat → List ListLine
  | _, 0 => []
  | i, n + 1 =>
    match readAt img (offset + DIR_ENTRY_SIZE * i) DIR_ENTRY_SIZE with
    | none => []
    | some e =>
      if entry_status e = 0 then list_block img offset (i + 1) n
      else list_line e :: list_block img offset (i + 1) n

/-- The `while (current != FAT_EOF)` loop of `list_directory`: the lines
printed from block `current` on. -/
def list_directory_loop (img : Image) (fat_start block_size : Nat) :
    Nat → Nat → Option (List ListLine)
  | 0, _ => none
  | fuel + 1, current =>
    if current = FAT_EOF then some []
    else
      match list_directory_loop img fat_start block_size fuel
          (read_link img fat_start block_size current) with
      | none => none
      | some later =>
        some (list_block img (current * block_size) 0 (block_size / DIR_ENTRY_SIZE) ++ later)

/-- Function `list_directory(fp, fat_start, block_size, start_block)`: the
lines printed, one for each call of `printf`. -/
def list_directory (img : Image) (fat_start block_size start_block : Nat) :
    Option (List ListLine) :=
  list_directory_loop img fat_start block_size loopBound start_block

/-! ## diskinfo.c: `print_fat` and `main` -/

/-- Structure `fat_t`: three `uint32_t` counters. -/
structure Fat where
  free_blocks : Nat
  reserved_blocks : Nat
  allocated_blocks : Nat
  deriving DecidableEq, Repr

/-- The value `ntohl(fat_table[i])` for the table held in memory as the bytes
`fat_table`. -/
def fat_table_word (fat_table : List Nat) (i : Nat) : Nat :=
  beVal ((fat_table.drop (4 * i)).take 4)

/-- The `switch` of `print_fat` on one table value. -/
def count_entry (fat : Fat) (v : Nat) : Fat :=
  if v = 0 then { fat with free_blocks := (fat.free_blocks + 1) % U32 }
  else if v = 1 then { fat with reserved_blocks := (fat.reserved_blocks + 1) % U32 }
  else { fat with allocated_blocks := (fat.allocated_blocks + 1) % U32 }

/-- The `for` loop of `print_fat` with `n` rounds to go, the next one for
index `i`. -/
def print_fat_loop (fat_table : List Nat) : Nat → Nat → Fat → Fat
  | _, 0, fat => fat
  | i, n + 1, fat =>
    print_fat_loop fat_table (i + 1) n (count_entry fat (fat_table_word fat_table i))

/-- Function `print_fat(fat, fat_table, fat_size)`: the counters it prints.
The loop counter is a `uint32_t` compared with `fat_size/4` in 64 bits: with
`2^32` entries or more it wraps and the loop does not end. -/
def print_fat (fat : Fat) (fat_table : List Nat) (fat_size : Nat) : Option Fat :=
  if fat_size / 4 < U32 then some (print_fat_loop fat_table 0 (fat_size / 4) fat)
  else none

/-- The size `fat_size` of the FAT as every `main` computes it: the product
of a `uint16_t` and a `uint32_t` is taken in `unsigned int`. -/
def fat_size_of (sb : SuperBlock) : Nat := sb.block_size * sb.fat_blocks % U32

/-- The table `fat_table` after `fseek(fp, block_size * fat_start)` (a product
in `unsigned int` again) and `fread(fat_table, 4, fat_size/4, fp)`.  The table
comes from `malloc(fat_size)`; what a short `fread` leaves untouched is
indeterminate in C and is taken as zero here. -/
def load_fat_table (img : Image) (sb : SuperBlock) : List Nat :=
  let got := (img.drop (sb.block_size * sb.fat_start % U32)).take (fat_size_of sb / 4 * 4)
  got ++ List.replicate (fat_size_of sb / 4 * 4 - got.length) 0

/-- Function `main` of diskinfo.c for an image that can be opened: the
superblock and the counters printed.  The structure `fat` comes from `malloc`
and is not initialised: `fat0` is what it holds before `print_fat` counts. -/
def diskinfo (img : Image) (fat0 : Fat) : Option (SuperBlock × Fat) :=
  match load_super_block img with
  | none => none
  | some sb =>
    match print_fat fat0 (load_fat_table img sb) (fat_size_of sb) with
    | none => none
    | some fat => some (sb, fat)

/-! ## Notions the properties are stated with -/

/-- The FAT entry of block `k` as the specification reads it: the big-endian
32-bit value at byte offset `fat_start*block_size + 4*k`, when those four
bytes are inside the image. -/
def fat_entry (img : Image) (fat_start block_size k : Nat) : Option Nat :=
  (readAt img (fat_start * block_size + 4 * k) 4).map beVal

/-- The blocks visited by following FAT links from block `b` until the
terminator `FAT_EOF` is read (at most `fuel` blocks; `none` when the chain
does not end in time or leaves the FAT). -/
def fat_chain (img : Image) (fat_start block_size : Nat) : Nat → Nat → Option (List Nat)
  | 0, _ => none
  | fuel + 1, b =>
    if b = FAT_EOF then some []
    else
      match fat_entry img fat_start block_size b with
      | none => none
      | some next => (fat_chain img fat_start block_size fuel next).map (fun l => b :: l)

/-- The 64 bytes of slot `i` of block `b`. -/
def slot_at (img : Image) (block_size b i : Nat) : Option (List Nat) :=
  readAt img (b * block_size + DIR_ENTRY_SIZE * i) DIR_ENTRY_SIZE

/-- Slot `i` of block `b` is inside the image and its status byte is 0. -/
def slot_free (img : Image) (block_size b i : Nat) : Bool :=
  match slot_at img block_size b i with
  | some e => entry_status e == 0
  | none => false

/-- Slot `i` of block `b` is inside the image and its status byte is not 0. -/
def slot_occupied (img : Image) (block_size b i : Nat) : Bool :=
  match slot_at img block_size b i with
  | some e => entry_status e != 0
  | none => false

/-- The number of occupied slots among the `block_size/64` slots of block
`b`. -/
def occupied_slots (img : Image) (block_size b : Nat) : Nat :=
  (List.range (block_size / DIR_ENTRY_SIZE)).countP (fun i => slot_occupied img block_size b i)

/-- The contents of block `b`: the `block_size` bytes from `b*block_size`
on. -/
def block_contents (img : Image) (block_size b : Nat) : List Nat :=
  (img.drop (b * block_size)).take block_size

/-- The big-endian value of the `n` bytes at byte offset `off`. -/
def be_at (img : Image) (off n : Nat) : Nat := beVal ((img.drop off).take n)

/-- The pieces of a path between its slashes (`'/'` is 47): the path is cut
at every slash, empty pieces included. -/
def split_slash : List Nat → List (List Nat)
  | [] => [[]]
  | c :: cs =>
    if c = 47 then [] :: split_slash cs
    else
      match split_slash cs with
      | [] => [[c]]
      | t :: ts => (c :: t) :: ts

/-- The components of a path as the specification names them: the non-empty
pieces between slashes, so that a leading slash counts for nothing. -/
def path_components (path : List Nat) : List (List Nat) :=
  (split_slash path).filter (fun t => !t.isEmpty)

/-- The lookup of the specification, a left fold of `find_subdir` over the
components: from the directory `cur = (start, block_count)` each component is
looked up in turn and the walk descends into the pair found; the first miss
ends the walk with a failure, the components behind it are not looked at. -/
def descend (img : Image) (block_size : Nat) :
    List (List Nat) → Nat × Nat → Option (Nat × Nat)
  | [], cur => some cur
  | component :: rest, cur =>
    match find_subdir img cur.1 cur.2 block_size component with
    | none => none
    | some sub => descend img block_size rest sub

/-! ## Example images -/

/-- The two bytes of `htons v`. -/
def htons (v : Nat) : List Nat := [v / 256 % 256, v % 256]

/-- The identifier "CSC360FS" and a superblock: bytes 0-29 of an image. -/
def image_header (sb : SuperBlock) : List Nat :=
  [67, 83, 67, 51, 54, 48, 70, 83] ++ htons sb.block_size ++ htonl sb.block_count
    ++ htonl sb.fat_start ++ htonl sb.fat_blocks ++ htonl sb.root_start
    ++ htonl sb.root_blocks

/-- A fresh image of 16 blocks of 64 bytes: block 0 holds the superblock,
block 1 the FAT (16 entries: blocks 0 and 1 reserved, block 2 a chain of one
block, blocks 3-15 free), block 2 the empty root directory. -/
def freshImage : Image :=
  image_header ⟨64, 16, 1, 1, 2, 1⟩ ++ List.replicate 34 0
    ++ (htonl 1 ++ htonl 1 ++ htonl FAT_EOF ++ List.replicate 52 0)
    ++ List.replicate 896 0

/-- A directory entry with all fields given: status, starting block, block
count, size, the two time stamps, the 31 bytes of the name and the six unused
bytes (0xFF). -/
def raw_entry (status start count size : Nat) (created modified name : List Nat) :
    List Nat :=
  [status] ++ htonl start ++ htonl count ++ htonl size ++ created ++ modified ++ name
    ++ List.replicate 6 255

/-- An image of 4 blocks of 64 bytes without a free block: block 0 holds the
superblock, block 1 the FAT (blocks 0 and 1 reserved, blocks 2 and 3 chains of
one block, the 12 entries without a block reserved), block 2 the root
directory with its one slot taken by the file "f" (name padded with spaces),
block 3 the 64 bytes of that file. -/
def fullImage : Image :=
  image_header ⟨64, 4, 1, 1, 2, 1⟩ ++ List.replicate 34 0
    ++ (htonl 1 ++ htonl 1 ++ htonl FAT_EOF ++ htonl FAT_EOF
        ++ (List.replicate 12 (htonl 1)).flatten)
    ++ raw_entry 3 3 1 64 [7, 232, 1, 2, 3, 4, 5] [7, 232, 1, 2, 3, 4, 5]
        ([102] ++ List.replicate 30 32)
    ++ List.replicate 64 65

/-- An image of 16 blocks of 64 bytes whose root directory is the chain
2 -> 5: block 2 holds the directory "a" (block 3), block 5 the directory "b"
(block 4).  The FAT is 1, 1, 5, EOF, EOF, EOF and ten free entries. -/
def chainImage : Image :=
  image_header ⟨64, 16, 1, 1, 2, 1⟩ ++ List.replicate 34 0
    ++ (htonl 1 ++ htonl 1 ++ htonl 5 ++ htonl FAT_EOF ++ htonl FAT_EOF ++ htonl FAT_EOF
        ++ List.replicate 40 0)
    ++ raw_entry 5 3 1 0 [7, 232, 1, 2, 3, 4, 5] [7, 232, 1, 2, 3, 4, 5]
        ([97] ++ List.replicate 30 0)
    ++ List.replicate 128 0
    ++ raw_entry 5 4 1 0 [7, 232, 1, 2, 3, 4, 5] [7, 232, 1, 2, 3, 4, 5]
        ([98] ++ List.replicate 30 0)
    ++ List.replicate 640 0

/-- An image of 4 blocks of 64 bytes whose FAT has no free entry: as
`fullImage`, but the 64 bytes of the file "f" in block 3 are zero. -/
def zeroFileImage : Image :=
  image_header ⟨64, 4, 1, 1, 2, 1⟩ ++ List.replicate 34 0
    ++ (htonl 1 ++ htonl 1 ++ htonl FAT_EOF ++ htonl FAT_EOF
        ++ (List.replicate 12 (htonl 1)).flatten)
    ++ raw_entry 3 3 1 64 [7, 232, 1, 2, 3, 4, 5] [7, 232, 1, 2, 3, 4, 5]
        ([102] ++ List.replicate 30 32)
    ++ List.replicate 64 0

/-- The image `chainImage` with block 5 zeroed: the root directory is the
chain 2 -> 5, the slot of block 2 is taken and the slot of block 5 is free. -/
def tailFreeImage : Image := writeAt chainImage 320 (List.replicate 64 0)

/-- The directory entry of the file "g": starting block 6, 2 blocks, 100
bytes. -/
def fileEntry : List Nat :=
  raw_entry 3 6 2 100 [7, 232, 1, 2, 3, 4, 5] [7, 232, 1, 2, 3, 4, 5]
    ([103] ++ List.replicate 30 0)

/-- An image of 16 blocks of 64 bytes with one file: the FAT is 1, 1, EOF, 0,
0, 0, 7, EOF and eight free entries, so that the file "g" of the root
directory is the chain 6 -> 7; block 6 holds the bytes 1, ..., 64 and block 7
the bytes 65, ..., 128. -/
def fileImage : Image :=
  image_header ⟨64, 16, 1, 1, 2, 1⟩ ++ List.replicate 34 0
    ++ (htonl 1 ++ htonl 1 ++ htonl FAT_EOF ++ List.replicate 12 0 ++ htonl 7
        ++ htonl FAT_EOF ++ List.replicate 32 0)
    ++ fileEntry
    ++ List.replicate 192 0
    ++ (List.range 64).map (fun i => i + 1)
    ++ (List.range 64).map (fun i => i + 65)
    ++ List.replicate 512 0

/-- An image of 8 blocks of 128 bytes with a full root directory: the FAT
(block 1) is 1, 1, EOF, EOF, EOF, three free entries and 24 reserved entries
without a block; the two slots of the root directory (block 2) hold the
directories "a" (block 3) and "b" (block 4). -/
def wideImage : Image :=
  image_header ⟨128, 8, 1, 1, 2, 1⟩ ++ List.replicate 98 0
    ++ (htonl 1 ++ htonl 1 ++ htonl FAT_EOF ++ htonl FAT_EOF ++ htonl FAT_EOF
        ++ List.replicate 12 0 ++ (List.replicate 24 (htonl 1)).flatten)
    ++ raw_entry 5 3 1 0 [7, 232, 1, 2, 3, 4, 5] [7, 232, 1, 2, 3, 4, 5]
        ([97] ++ List.replicate 30 0)
    ++ raw_entry 5 4 1 0 [7, 232, 1, 2, 3, 4, 5] [7, 232, 1, 2, 3, 4, 5]
        ([98] ++ List.replicate 30 0)
    ++ List.replicate 640 0

/-- The image `fullImage` with FAT entry 0 set to 0: the superblock's own
block is marked free, no other FAT entry is 0. -/
def zeroFirstImage : Image :=
  image_header ⟨64, 4, 1, 1, 2, 1⟩ ++ List.replicate 34 0
    ++ (htonl 0 ++ htonl 1 ++ htonl FAT_EOF ++ htonl FAT_EOF
        ++ (List.replicate 12 (htonl 1)).flatten)
    ++ raw_entry 3 3 1 64 [7, 232, 1, 2, 3, 4, 5] [7, 232, 1, 2, 3, 4, 5]
        ([102] ++ List.replicate 30 32)
    ++ List.replicate 64 65

/-- An image of 16 blocks of 64 bytes with a corrupt chain: the FAT is 1, 1,
EOF, 3 and twelve free entries, so that block 3 is linked to itself.  The root
directory (block 2) holds the directory "a" (block 3); the one slot of block 3
holds the file "x". -/
def cycleImage : Image :=
  image_header ⟨64, 16, 1, 1, 2, 1⟩ ++ List.replicate 34 0
    ++ (htonl 1 ++ htonl 1 ++ htonl FAT_EOF ++ htonl 3 ++ List.replicate 48 0)
    ++ raw_entry 5 3 1 0 [7, 232, 1, 2, 3, 4, 5] [7, 232, 1, 2, 3, 4, 5]
        ([97] ++ List.replicate 30 0)
    ++ raw_entry 3 4 1 10 [7, 232, 1, 2, 3, 4, 5] [7, 232, 1, 2, 3, 4, 5]
        ([120] ++ List.replicate 30 0)
    ++ List.replicate 768 0

/-- A time of day for the examples: 30 October 2026, 12:00:00. -/
def exampleTime : Tm := ⟨126, 9, 30, 12, 0, 0⟩

/-- A directory block of 64 bytes on its own: its one slot holds the
directory "notes" (block 3), the name padded with 13 spaces and 13 zero
bytes. -/
def notesEntry : List Nat :=
  raw_entry 5 3 1 0 [7, 232, 1, 2, 3, 4, 5] [7, 232, 1, 2, 3, 4, 5]
    ([110, 111, 116, 101, 115] ++ List.replicate 13 32 ++ List.replicate 13 0)

/-- The path "/a/b/name". -/
def path_a_b_name : List Nat := [47, 97, 47, 98, 47, 110, 97, 109, 101]

/-! ## Properties -/

set_option maxRecDepth 1000000 in
/-- C1 (put/get round trip), evaluated on the fresh image: after putting a file
of 1 byte, and likewise a file of `10*block_size = 640` bytes, at "/a/b/name",
`diskget` of "/a/b/name" ends with "not found" instead of giving back the
source bytes. -/
theorem put_then_get_on_freshImage :
    ((diskput freshImage [65] path_a_b_name exampleTime).bind
        (fun img => diskget img path_a_b_name) = some GetResult.not_found) ∧
    ((diskput freshImage (List.replicate 640 65) path_a_b_name exampleTime).bind
        (fun img => diskget img path_a_b_name) = some GetResult.not_found) := by
  decide

set_option maxRecDepth 1000000 in
/-- C2 (no block reuse), evaluated on the fresh image: two calls of
`allocate_block`, the second on the image the first one left, both succeed and
both return block 3. -/
theorem allocate_block_twice_on_freshImage :
    (allocate_block freshImage 1 64).bind
        (fun r => (allocate_block r.2 1 64).map (fun r2 => (r.1, r2.1))) = some (3, 3) := by
  decide

set_option maxRecDepth 1000000 in
/-- C3 (exhaustion is safe), evaluated on the full image, where
`allocate_block` finds no free block and returns 0 without a change: the
create-mode `resolve_path` on "/a" then zeroes block 0, so that the 22 bytes of
the superblock read as zero afterwards; and `allocate_fat` followed by
`write_file` for a source of 30 bytes writes these bytes over bytes 0-29 of
the image, the superblock included. -/
theorem exhaustion_on_fullImage :
    allocate_block fullImage 1 64 = some (0, fullImage) ∧
    readAt fullImage 8 22 = some (htons 64 ++ htonl 4 ++ htonl 1 ++ htonl 1 ++ htonl 2 ++ htonl 1) ∧
    (resolve_path_create fullImage 2 1 64 [47, 97] 1 exampleTime).map
        (fun r => readAt r.1 8 22) = some (some (List.replicate 22 0)) ∧
    ((allocate_fat fullImage 1 64 30).bind
        (fun r => write_file r.2 (List.replicate 30 65) 64 r.1 30 1)).map
        (fun img => readAt img 0 30) = some (some (List.replicate 30 65)) := by
  decide

set_option maxRecDepth 1000000 in
/-- C4 (the discovered slot is marked and nothing else), evaluated on the fresh
image: `allocate_block` returns block 3, whose FAT entry still reads 0
afterwards, while the FAT entry of block 1 has changed from 1 to
`FAT_EOF`. -/
theorem allocate_block_mark_on_freshImage :
    fat_entry freshImage 1 64 1 = some 1 ∧
    (allocate_block freshImage 1 64).map
        (fun r => (r.1, fat_entry r.2 1 64 3, fat_entry r.2 1 64 1))
      = some (3, some 0, some FAT_EOF) := by
  decide

/-! ### `allocate_block` returns the first free entry -/

theorem readAt_isSome_of_le {img : Image} {p q n : Nat} {w : List Nat}
    (h : readAt img q n = some w) (hpq : p ≤ q) : ∃ v, readAt img p n = some v := by
  unfold readAt at h ⊢
  split at h
  · rw [if_pos (by omega)]; exact ⟨_, rfl⟩
  · cases h

theorem scan_entries_done (img : Image) (off : Nat) :
    ∀ n i, (∀ t, t < n → ∃ w, readAt img (off + 4 * (i + t)) 4 = some w ∧ beVal w ≠ 0) →
      scan_entries img off i n = Scan.done := by
  intro n
  induction n with
  | zero => intro i _; rfl
  | succ n ih =>
    intro i h
    obtain ⟨w, hw, hne⟩ := h 0 (Nat.succ_pos n)
    rw [Nat.add_zero] at hw
    rw [scan_entries, hw]
    simp only [hne, if_false]
    apply ih
    intro t ht
    have := h (t + 1) (Nat.succ_lt_succ ht)
    rwa [show i + (t + 1) = i + 1 + t by omega] at this

theorem scan_entries_found (img : Image) (off : Nat) :
    ∀ m n i, m < n →
      (∀ t, t < m → ∃ w, readAt img (off + 4 * (i + t)) 4 = some w ∧ beVal w ≠ 0) →
      (∃ w, readAt img (off + 4 * (i + m)) 4 = some w ∧ beVal w = 0) →
      scan_entries img off i n = Scan.found (i + m) := by
  intro m
  induction m with
  | zero =>
    intro n i hn _ hz
    obtain ⟨w, hw, hzero⟩ := hz
    obtain ⟨n', rfl⟩ : ∃ n', n = n' + 1 := ⟨n - 1, by omega⟩
    rw [Nat.add_zero] at hw
    rw [scan_entries, hw]
    simp [hzero]
  | succ m ih =>
    intro n i hn hbefore hz
    obtain ⟨n', rfl⟩ : ∃ n', n = n' + 1 := ⟨n - 1, by omega⟩
    obtain ⟨w, hw, hne⟩ := hbefore 0 (Nat.succ_pos m)
    rw [Nat.add_zero] at hw
    rw [scan_entries, hw]
    simp only [hne, if_false]
    rw [show i + (m + 1) = i + 1 + m by omega]
    apply ih n' (i + 1) (by omega)
    · intro t ht
      have := hbefore (t + 1) (Nat.succ_lt_succ ht)
      rwa [show i + (t + 1) = i + 1 + t by omega] at this
    · rwa [show i + (m + 1) = i + 1 + m by omega] at hz



theorem fat_entry_eq_some_iff {img : Image} {fs bs j v : Nat} :
    fat_entry img fs bs j = some v ↔
      ∃ w, readAt img (fs * bs + 4 * j) 4 = some w ∧ beVal w = v := by
  unfold fat_entry
  cases readAt img (fs * bs + 4 * j) 4 <;> simp

/-- Below a readable FAT entry every entry is readable. -/
theorem fat_entry_readable_below {img : Image} {fs bs j k v : Nat}
    (h : fat_entry img fs bs k = some v) (hj : j ≤ k) :
    ∃ u, fat_entry img fs bs j = some u := by
  obtain ⟨w, hw, _⟩ := fat_entry_eq_some_iff.1 h
  obtain ⟨u, hu⟩ := readAt_isSome_of_le (p := fs * bs + 4 * j) hw (by omega)
  exact ⟨beVal u, fat_entry_eq_some_iff.2 ⟨u, hu, rfl⟩⟩

theorem readAt_some_le {img : Image} {p n : Nat} {w : List Nat}
    (h : readAt img p n = some w) : p + n ≤ img.length := by
  unfold readAt at h
  split at h
  · assumption
  · cases h

theorem allocate_block_loop_first_free (img : Image) (fs be k : Nat)
    (hbe : 0 < be) (hlen : img.length < U32)
    (hk : fat_entry img fs (4 * be) k = some 0)
    (hmin : ∀ j, j < k → fat_entry img fs (4 * be) j ≠ some 0) :
    ∀ d b fuel, b + d = k / be → d < fuel →
      allocate_block_loop img fs (4 * be) fuel b
        = some (k, writeAt img (fs * (4 * be) + (k / be) * (4 * be) + 4) (htonl FAT_EOF)) := by
  have hkoff : fs * (4 * be) + 4 * k + 4 ≤ img.length := by
    obtain ⟨w, hw, _⟩ := fat_entry_eq_some_iff.1 hk
    exact readAt_some_le hw
  have hdiv : k / be * be ≤ k := Nat.div_mul_le_self k be
  have hmod : k / be * be + k % be = k := Nat.div_add_mod' k be
  have hmodlt : k % be < be := Nat.mod_lt _ hbe
  have hnz : ∀ j, j < k → ∃ w, readAt img (fs * (4 * be) + 4 * j) 4 = some w ∧ beVal w ≠ 0 := by
    intro j hj
    obtain ⟨u, hu⟩ := fat_entry_readable_below hk (Nat.le_of_lt hj)
    obtain ⟨w, hw, hwu⟩ := fat_entry_eq_some_iff.1 hu
    refine ⟨w, hw, ?_⟩
    intro h0
    exact hmin j hj (by rw [hu, ← hwu, h0])
  intro d
  induction d with
  | zero =>
    intro b fuel hb hfuel
    obtain ⟨fuel', rfl⟩ : ∃ f, fuel = f + 1 := ⟨fuel - 1, by omega⟩
    have hb' : b = k / be := by omega
    subst hb'
    have hsmall : k / be * (4 * be) < U32 := by nlinarith
    rw [allocate_block_loop]
    simp only [Nat.mod_eq_of_lt hsmall, Nat.mul_div_cancel_left be (by decide : 0 < 4)]
    have hscan : scan_entries img (fs * (4 * be) + k / be * (4 * be)) 0 be
        = Scan.found (0 + k % be) := by
      apply scan_entries_found _ _ _ _ _ hmodlt
      · intro t ht
        obtain ⟨w, hw, hne⟩ := hnz (k / be * be + t) (by omega)
        refine ⟨w, ?_, hne⟩
        rw [← hw]; congr 1; ring
      · obtain ⟨w, hw, hz⟩ := fat_entry_eq_some_iff.1 hk
        refine ⟨w, ?_, hz⟩
        rw [← hw]; congr 1
        have : 4 * k = 4 * (k / be * be) + 4 * (k % be) := by omega
        rw [this]; ring
    rw [hscan]
    simp only [Nat.zero_add, hmod]
    rw [Nat.mod_eq_of_lt (by omega)]
  | succ d ih =>
    intro b fuel hb hfuel
    obtain ⟨fuel', rfl⟩ : ∃ f, fuel = f + 1 := ⟨fuel - 1, by omega⟩
    have hblt : b < k / be := by omega
    have hb1 : (b + 1) * be ≤ k := le_trans (Nat.mul_le_mul_right be hblt) hdiv
    have hsmall : b * (4 * be) < U32 := by nlinarith
    rw [allocate_block_loop]
    simp only [Nat.mod_eq_of_lt hsmall, Nat.mul_div_cancel_left be (by decide : 0 < 4)]
    have hscan : scan_entries img (fs * (4 * be) + b * (4 * be)) 0 be = Scan.done := by
      apply scan_entries_done
      intro t ht
      obtain ⟨w, hw, hne⟩ := hnz (b * be + t) (by nlinarith)
      refine ⟨w, ?_, hne⟩
      rw [← hw]; congr 1; ring
    rw [hscan]
    simp only []
    have hb1lt : b + 1 < U32 := by
      have : b + 1 ≤ k := le_trans (Nat.le_mul_of_pos_right _ hbe) hb1
      omega
    rw [Nat.mod_eq_of_lt hb1lt]
    exact ih (b + 1) fuel' (by omega) (by omega)

/-- C5: `allocate_block` returns the first free entry.  For an image of less
than `2^32` bytes whose block size is a positive multiple of 4 and in which
some FAT entry reads as 0, `allocate_block` returns, and the block number `k` it
returns is the smallest index whose FAT entry (the big-endian 32-bit value at
byte offset `fat_start*block_size + 4*k`) is 0.  A free entry inside the FAT
region is in particular such an entry, and the smallest one is then inside the
FAT region too. -/
theorem allocate_block_returns_first_free (img : Image) (fat_start block_size : Nat)
    (h4 : 4 ∣ block_size) (hpos : 0 < block_size) (hlen : img.length < 4294967296)
    (hfree : ∃ i, fat_entry img fat_start block_size i = some 0) :
    ∃ k img1, allocate_block img fat_start block_size = some (k, img1) ∧
      fat_entry img fat_start block_size k = some 0 ∧
      ∀ j, j < k → fat_entry img fat_start block_size j ≠ some 0 := by
  classical
  obtain ⟨be, rfl⟩ := h4
  have hbe : 0 < be := by omega
  have hk := Nat.find_spec hfree
  have hmin : ∀ j, j < Nat.find hfree → fat_entry img fat_start (4 * be) j ≠ some 0 :=
    fun j hj => Nat.find_min hfree hj
  have hkoff : fat_start * (4 * be) + 4 * Nat.find hfree + 4 ≤ img.length := by
    obtain ⟨w, hw, _⟩ := fat_entry_eq_some_iff.1 hk
    exact readAt_some_le hw
  have hdiv : Nat.find hfree / be ≤ Nat.find hfree := Nat.div_le_self _ _
  exact ⟨Nat.find hfree, _,
    allocate_block_loop_first_free img fat_start be (Nat.find hfree) hbe hlen hk hmin
      (Nat.find hfree / be) 0 loopBound (by omega) (by unfold loopBound; omega),
    hk, hmin⟩

set_option maxRecDepth 1000000 in
/-- Witness for C5 on the fresh image (block size 64, FAT in block 1, first free
entry 3). -/
theorem allocate_block_returns_first_free_witness :
    ∃ k img1, allocate_block freshImage 1 64 = some (k, img1) ∧
      fat_entry freshImage 1 64 k = some 0 ∧
      ∀ j, j < k → fat_entry freshImage 1 64 j ≠ some 0 :=
  allocate_block_returns_first_free freshImage 1 64 (by decide) (by decide) (by decide)
    ⟨3, by decide⟩

/-! ### `allocate_fat` on the fresh image -/

set_option maxRecDepth 1000000 in
/-- C6 (the chain built by `allocate_fat` has `ceil(n/block_size)` blocks),
evaluated on the fresh image, which has 13 free blocks: for a file of 128 bytes
(2 blocks) `allocate_fat` returns block 3 and the chain from block 3 is the one
block 3; for a file of 640 bytes (10 blocks) it returns block 3 and the chain
is 3, 4, 5, 6, 7. -/
theorem allocate_fat_chain_on_freshImage :
    (allocate_fat freshImage 1 64 128).map (fun r => (r.1, fat_chain r.2 1 64 16 r.1))
      = some (3, some [3]) ∧
    (allocate_fat freshImage 1 64 640).map (fun r => (r.1, fat_chain r.2 1 64 16 r.1))
      = some (3, some [3, 4, 5, 6, 7]) := by
  decide

/-! ### Lookup-mode `resolve_path` is a left fold of `find_subdir` -/

theorem split_slash_unfold (cs : List Nat) :
    split_slash cs = cs.takeWhile (fun c => c != 47) ::
      (match cs.dropWhile (fun c => c != 47) with
        | [] => []
        | _ :: r => split_slash r) := by
  induction cs with
  | nil => rfl
  | cons c cs ih =>
    by_cases hc : c = 47
    · subst hc
      simp [split_slash]
    · have hb : (c != 47) = true := by simpa using hc
      rw [split_slash, if_neg hc, ih]
      simp [List.takeWhile_cons, List.dropWhile_cons, hb]

theorem path_components_nil : path_components [] = [] := rfl

theorem path_components_slash (cs : List Nat) :
    path_components (47 :: cs) = path_components cs := by
  simp [path_components, split_slash]

theorem path_components_cons {c : Nat} (hc : c ≠ 47) (cs : List Nat) :
    path_components (c :: cs) =
      (c :: cs.takeWhile (fun c => c != 47)) ::
        path_components ((cs.dropWhile (fun c => c != 47)).drop 1) := by
  have hb : (c != 47) = true := by simpa using hc
  unfold path_components
  rw [split_slash_unfold (c :: cs)]
  simp only [List.takeWhile_cons, List.dropWhile_cons, hb, if_true]
  cases hd : cs.dropWhile (fun c => c != 47) with
  | nil => simp [split_slash]
  | cons x r => simp

theorem strtok_slash (cs : List Nat) : strtok (47 :: cs) = strtok cs := by
  simp [strtok, List.dropWhile_cons]

theorem strtok_cons {c : Nat} (hc : c ≠ 47) (cs : List Nat) :
    strtok (c :: cs) =
      some (c :: cs.takeWhile (fun c => c != 47),
        (cs.dropWhile (fun c => c != 47)).drop 1) := by
  have hb : (c != 47) = true := by simpa using hc
  have hb2 : (c == 47) = false := by simpa using hc
  simp [strtok, List.dropWhile_cons, List.takeWhile_cons, hb, hb2]

/-- What one call of `strtok` does to the list of components. -/
theorem strtok_components (s : List Nat) :
    (strtok s = none ∧ path_components s = []) ∨
    (∃ token rest, strtok s = some (token, rest) ∧
      path_components s = token :: path_components rest ∧ rest.length < s.length) := by
  induction s with
  | nil => left; exact ⟨rfl, rfl⟩
  | cons c cs ih =>
    by_cases hc : c = 47
    · subst hc
      rw [strtok_slash, path_components_slash]
      rcases ih with h | ⟨token, rest, h1, h2, h3⟩
      · left; exact h
      · right; exact ⟨token, rest, h1, h2, by simp; omega⟩
    · right
      refine ⟨_, _, strtok_cons hc cs, path_components_cons hc cs, ?_⟩
      have := (List.dropWhile_sublist (l := cs) (fun c => c != 47)).length_le
      simp only [List.length_drop, List.length_cons]
      omega

theorem resolve_path_loop_eq_descend (img : Image) (block_size : Nat) :
    ∀ fuel s start blocks, s.length < fuel →
      resolve_path_loop img block_size fuel s start blocks
        = descend img block_size (path_components s) (start, blocks) := by
  intro fuel
  induction fuel with
  | zero => intro s _ _ h; omega
  | succ fuel ih =>
    intro s start blocks hlen
    rcases strtok_components s with ⟨h1, h2⟩ | ⟨token, rest, h1, h2, h3⟩
    · rw [resolve_path_loop, h1, h2]; rfl
    · rw [resolve_path_loop, h1, h2, descend]
      simp only []
      cases hf : find_subdir img start blocks block_size token with
      | none => rfl
      | some sub =>
        obtain ⟨sub_start, sub_blocks⟩ := sub
        exact ih rest sub_start sub_blocks (by omega)

theorem path_components_skip_leading_slash (path : List Nat) :
    path_components (skip_leading_slash path) = path_components path := by
  unfold skip_leading_slash
  split
  · rw [path_components_slash]
  · rfl

theorem length_skip_leading_slash_le (path : List Nat) :
    (skip_leading_slash path).length ≤ path.length := by
  unfold skip_leading_slash
  split <;> simp

/-- C7: the lookup-mode `resolve_path` (diskget.c, disklist.c) is a left fold of
`find_subdir` over the components of the path.  For every image and path it
gives what `descend` gives from `(root_start, root_blocks)`: success exactly
when `find_subdir` succeeds for each component in turn, with the pair found
for the last component, and failure at the first miss; for the empty path and
for "/" it gives `(root_start, root_blocks)`. -/
theorem resolve_path_eq_descend (img : Image) (root_start root_blocks block_size : Nat)
    (path : List Nat) :
    resolve_path img root_start root_blocks block_size path
        = descend img block_size (path_components path) (root_start, root_blocks) ∧
    resolve_path img root_start root_blocks block_size [] = some (root_start, root_blocks) ∧
    resolve_path img root_start root_blocks block_size [47]
        = some (root_start, root_blocks) := by
  refine ⟨?_, rfl, rfl⟩
  unfold resolve_path
  rw [resolve_path_loop_eq_descend _ _ _ _ _ _
    (Nat.lt_succ_of_le (length_skip_leading_slash_le path)),
    path_components_skip_leading_slash]

/-! ### `find_subdir` and the chain of a directory -/

set_option maxRecDepth 1000000 in
/-- C8 (`find_subdir` scans every block of the chain), evaluated on the image
whose root directory is the chain 2 -> 5: slot 0 of block 5 holds an occupied
entry with the directory bit whose trimmed name is "b" and whose starting block
is 4, and `find_subdir` on the root directory (start block 2, block count 1, as
the superblock says) does not find "b". -/
theorem find_subdir_on_chainImage :
    load_super_block chainImage = some ⟨64, 16, 1, 1, 2, 1⟩ ∧
    fat_chain chainImage 1 64 16 2 = some [2, 5] ∧
    (slot_at chainImage 64 5 0).map (fun e => (subdir_match e [98], entry_starting_block e))
      = some (true, 4) ∧
    find_subdir chainImage 2 1 64 [98] = none := by
  decide

/-! ### Name matching in `find_subdir` -/

theorem trim_rev_padding (p r : List Nat) (hp : ∀ c ∈ p, c = 32 ∨ c = 0) :
    trim_rev (p ++ r) = List.replicate p.length 0 ++ trim_rev r := by
  induction p with
  | nil => rfl
  | cons c p ih =>
    have hc : c = 0 ∨ c = 32 := (hp c (List.mem_cons_self c p)).symm
    have ih' := ih (fun x hx => hp x (List.mem_cons_of_mem c hx))
    simp [trim_rev, hc, ih', List.replicate_succ]

theorem trim_rev_of_last {s : List Nat} (hnz : ∀ c ∈ s, c ≠ 0)
    (hlast : s.getLast? ≠ some 32) : trim_rev s.reverse = s.reverse := by
  cases hr : s.reverse with
  | nil => rfl
  | cons c r =>
    have hs : s = r.reverse ++ [c] := by
      have := congrArg List.reverse hr
      simpa using this
    have hc0 : c ≠ 0 := hnz c (by rw [hs]; simp)
    have hc32 : c ≠ 32 := by
      intro h
      apply hlast
      rw [hs, h]; simp
    simp [trim_rev, hc0, hc32]

theorem cstr_append_zero (s t : List Nat) (hnz : ∀ c ∈ s, c ≠ 0) :
    cstr (s ++ 0 :: t) = s := by
  induction s with
  | nil => simp [cstr]
  | cons c s ih =>
    have hc : c ≠ 0 := hnz c (List.mem_cons_self c s)
    have := ih (fun x hx => hnz x (List.mem_cons_of_mem c hx))
    unfold cstr at this ⊢
    simp [List.takeWhile_cons, hc, this]

/-- The string `find_subdir` compares with the target is the name without its
padding. -/
theorem cstr_trimmed_name_buf (s pad : List Nat) (hnz : ∀ c ∈ s, c ≠ 0)
    (hlast : s.getLast? ≠ some 32) (hpad : ∀ c ∈ pad, c = 32 ∨ c = 0) :
    cstr (trimmed_name_buf (s ++ pad)) = s := by
  unfold trimmed_name_buf
  rw [List.reverse_append, trim_rev_padding _ _ (by simpa using hpad),
    trim_rev_of_last hnz hlast, List.reverse_append, List.reverse_reverse,
    List.reverse_replicate, List.append_assoc]
  cases hp : pad.reverse.length with
  | zero => simpa using cstr_append_zero s [] hnz
  | succ n =>
    rw [List.replicate_succ, List.cons_append]
    exact cstr_append_zero s _ hnz

theorem subdir_match_padded (e s pad : List Nat) (hdir : entry_status e &&& 4 ≠ 0)
    (hname : entry_name e = s ++ pad) (hnz : ∀ c ∈ s, c ≠ 0)
    (hlast : s.getLast? ≠ some 32) (hpad : ∀ c ∈ pad, c = 32 ∨ c = 0) :
    subdir_match e s = true ∧ subdir_match e (s ++ [32]) = false := by
  unfold subdir_match
  rw [hname, cstr_trimmed_name_buf s pad hnz hlast hpad]
  constructor
  · simp [hdir]
  · have : s ≠ s ++ [32] := by
      intro h
      have := congrArg List.length h
      simp at this
    simp [this]

theorem entry_status_ne_zero_of_dir {e : List Nat} (hdir : entry_status e &&& 4 ≠ 0) :
    entry_status e ≠ 0 := by
  intro h
  rw [h] at hdir
  exact hdir (by simp)

/-- C9: directory name matching ignores trailing padding only.  Let the name
field of a directory entry be a name `s`, without a zero byte and not ending in
a space, followed by spaces and zero bytes.  Then the test of `find_subdir`
accepts the entry for the target `s` and rejects it for `s` followed by a
space; so `find_subdir` on a directory whose one slot holds the entry finds
it for `s` and finds nothing for `s` followed by a space. -/
theorem find_subdir_ignores_trailing_padding (img : Image)
    (start_block block_count block_size : Nat) (e s pad : List Nat)
    (hnz : ∀ c ∈ s, c ≠ 0) (hlast : s.getLast? ≠ some 32)
    (hpad : ∀ c ∈ pad, c = 32 ∨ c = 0)
    (hslots : block_count * (block_size % 65536) / 64 = 1)
    (hslot : readAt img (start_block * (block_size % 65536)) 64 = some e)
    (hdir : entry_status e &&& 4 ≠ 0) (hname : entry_name e = s ++ pad) :
    subdir_match e s = true ∧ subdir_match e (s ++ [32]) = false ∧
    find_subdir img start_block block_count block_size s
      = some (entry_starting_block e, entry_block_count e) ∧
    find_subdir img start_block block_count block_size (s ++ [32]) = none := by
  obtain ⟨hyes, hno⟩ := subdir_match_padded e s pad hdir hname hnz hlast hpad
  have hst := entry_status_ne_zero_of_dir hdir
  refine ⟨hyes, hno, ?_, ?_⟩
  · simp [find_subdir, find_subdir_loop, DIR_ENTRY_SIZE, hslots, hslot, hst, hyes]
  · simp [find_subdir, find_subdir_loop, DIR_ENTRY_SIZE, hslots, hslot, hst, hno]

set_option maxRecDepth 100000 in
/-- Witness for C9: a directory of one block of 64 bytes whose slot holds the
directory "notes", the name padded with 13 spaces and 13 zero bytes. -/
theorem find_subdir_ignores_trailing_padding_witness :
    subdir_match notesEntry [110, 111, 116, 101, 115] = true ∧
    subdir_match notesEntry ([110, 111, 116, 101, 115] ++ [32]) = false ∧
    find_subdir notesEntry 0 1 64 [110, 111, 116, 101, 115]
      = some (entry_starting_block notesEntry, entry_block_count notesEntry) ∧
    find_subdir notesEntry 0 1 64 ([110, 111, 116, 101, 115] ++ [32]) = none :=
  find_subdir_ignores_trailing_padding notesEntry 0 1 64 notesEntry
    [110, 111, 116, 101, 115] (List.replicate 13 32 ++ List.replicate 13 0)
    (by decide) (by decide) (by decide) (by decide) (by decide) (by decide) (by decide)

/-! ### `find_file` and name padding -/

set_option maxRecDepth 1000000 in
/-- C10 (file lookup strips name padding), evaluated on the full image: the
slot of its root directory is occupied, has the file bit set and holds the
name "f" padded with 30 spaces, and `find_file` with the file name "f" returns
"not found". -/
theorem find_file_on_fullImage :
    (slot_at fullImage 64 2 0).map
        (fun e => (entry_status e, entry_status e &&& 2 != 0, entry_name e))
      = some (3, true, [102] ++ List.replicate 30 32) ∧
    find_file fullImage 2 1 64 [102] = some none := by
  decide

/-! ### The superblock -/

/-- C18: superblock decoding.  For every image of at least 30 bytes the
geometry the front ends load has `block_size` equal to the big-endian 16-bit
value at byte offset 8 and `block_count`, `fat_start`, `fat_blocks`,
`root_start`, `root_blocks` equal to the big-endian 32-bit values at byte
offsets 10, 14, 18, 22 and 26; and replacing bytes 0-7 by any other eight
bytes does not change the result. -/
theorem load_super_block_decodes (img : Image) (h : 30 ≤ img.length) :
    load_super_block img
      = some ⟨be_at img 8 2, be_at img 10 4, be_at img 14 4, be_at img 18 4,
          be_at img 22 4, be_at img 26 4⟩ ∧
    ∀ ident : List Nat, ident.length = 8 →
      load_super_block (ident ++ img.drop 8) = load_super_block img := by
  constructor
  · unfold load_super_block readAt be_at
    rw [if_pos (by omega)]
    simp [List.take_take, List.drop_take, List.drop_drop]
  · intro ident hident
    unfold load_super_block readAt
    have hlen : (ident ++ img.drop 8).length = img.length := by
      simp [hident]; omega
    have hdrop : (ident ++ img.drop 8).drop 8 = img.drop 8 := by
      rw [← hident, List.drop_left]
    rw [hlen, hdrop]

set_option maxRecDepth 1000000 in
/-- Witness for C18 on the fresh image. -/
theorem load_super_block_decodes_witness :
    load_super_block freshImage
      = some ⟨be_at freshImage 8 2, be_at freshImage 10 4, be_at freshImage 14 4,
          be_at freshImage 18 4, be_at freshImage 22 4, be_at freshImage 26 4⟩ ∧
    ∀ ident : List Nat, ident.length = 8 →
      load_super_block (ident ++ freshImage.drop 8) = load_super_block freshImage :=
  load_super_block_decodes freshImage (by decide)

/-! ### Create mode follows lookup mode -/

theorem resolve_path_create_loop_of_lookup (img : Image) (block_size fat_start : Nat)
    (now : Tm) :
    ∀ fuel s start blocks r,
      resolve_path_loop img block_size fuel s start blocks = some r →
      resolve_path_create_loop block_size fat_start now fuel img s start blocks
        = some (img, r) := by
  intro fuel
  induction fuel with
  | zero => intro s start blocks r h; simp [resolve_path_loop] at h
  | succ fuel ih =>
    intro s start blocks r h
    rw [resolve_path_loop] at h
    rw [resolve_path_create_loop]
    cases ht : strtok s with
    | none =>
      rw [ht] at h
      simp only [Option.some.injEq] at h
      simp [← h]
    | some tr =>
      obtain ⟨token, rest⟩ := tr
      rw [ht] at h
      simp only at h ⊢
      cases hf : find_subdir img start blocks block_size token with
      | none => rw [hf] at h; simp at h
      | some sub =>
        obtain ⟨sub_start, sub_blocks⟩ := sub
        rw [hf] at h
        simp only at h ⊢
        exact ih rest sub_start sub_blocks r h

/-- C14: create mode refines lookup mode.  For every image and path on which
the lookup-mode `resolve_path` (diskget.c) succeeds with `(start, blocks)`, the
create-mode `resolve_path` (diskput.c) returns the same pair and the image
after the call is the image before it. -/
theorem resolve_path_create_of_lookup (img : Image)
    (root_start root_blocks block_size fat_start : Nat) (path : List Nat) (now : Tm)
    (start blocks : Nat)
    (h : resolve_path img root_start root_blocks block_size path = some (start, blocks)) :
    resolve_path_create img root_start root_blocks block_size path fat_start now
      = some (img, start, blocks) :=
  resolve_path_create_loop_of_lookup img block_size fat_start now _ _ _ _ _ h

set_option maxRecDepth 1000000 in
/-- Witness for C14: the path "/a" on the image whose root directory holds
the directory "a". -/
theorem resolve_path_create_of_lookup_witness :
    resolve_path_create chainImage 2 1 64 [47, 97] 1 exampleTime
      = some (chainImage, 3, 1) :=
  resolve_path_create_of_lookup chainImage 2 1 64 1 [47, 97] exampleTime 3 1 (by decide)

/-! ### Reading and writing bytes -/

theorem readAt_eq_some_iff {img : Image} {p n : Nat} {w : List Nat} :
    readAt img p n = some w ↔ p + n ≤ img.length ∧ w = (img.drop p).take n := by
  unfold readAt
  split
  · simp [*, eq_comm]
  · simp [*]

theorem readAt_eq_none_iff {img : Image} {p n : Nat} :
    readAt img p n = none ↔ img.length < p + n := by
  unfold readAt
  split
  · simp; omega
  · simp; omega

theorem length_of_readAt {img : Image} {p n : Nat} {w : List Nat}
    (h : readAt img p n = some w) : w.length = n := by
  obtain ⟨h1, rfl⟩ := readAt_eq_some_iff.1 h
  simp; omega

theorem getElem?_take_drop (l : List Nat) (q n i : Nat) :
    ((l.drop q).take n)[i]? = if i < n then l[q + i]? else none := by
  by_cases h : i < n
  · simp [h, List.getElem?_take, List.getElem?_drop]
  · simp [h, List.getElem?_take]

/-- Two lists that agree on the positions `q, ..., q+n-1` have the same `n`
bytes at `q`. -/
theorem take_drop_congr {l1 l2 : List Nat} {q n : Nat}
    (h : ∀ i, i < n → l1[q + i]? = l2[q + i]?) :
    (l1.drop q).take n = (l2.drop q).take n := by
  apply List.ext_getElem?
  intro i
  rw [getElem?_take_drop, getElem?_take_drop]
  split
  · exact h i ‹_›
  · rfl

theorem length_writeAt (img : Image) (p : Nat) {d : List Nat} (hd : d ≠ []) :
    (writeAt img p d).length = max img.length (p + d.length) := by
  unfold writeAt
  have : d.isEmpty = false := by cases d <;> simp_all
  simp only [this, Bool.false_eq_true, if_false, List.length_append, List.length_take,
    List.length_replicate, List.length_drop]
  omega

theorem length_le_length_writeAt (img : Image) (p : Nat) (d : List Nat) :
    img.length ≤ (writeAt img p d).length := by
  by_cases hd : d = []
  · subst hd; simp [writeAt]
  · rw [length_writeAt img p hd]; omega

theorem length_writeAt_of_le (img : Image) (p : Nat) (d : List Nat)
    (h : p + d.length ≤ img.length) : (writeAt img p d).length = img.length := by
  by_cases hd : d = []
  · subst hd; simp [writeAt]
  · rw [length_writeAt img p hd]; omega

/-- The bytes of the image after a write. -/
theorem getElem?_writeAt (img : Image) (p : Nat) {d : List Nat} (hd : d ≠ []) (q : Nat) :
    (writeAt img p d)[q]? =
      if q < p then (if q < img.length then img[q]? else some 0)
      else if q < p + d.length then d[q - p]? else img[q]? := by
  unfold writeAt
  have hemp : d.isEmpty = false := by cases d <;> simp_all
  simp only [hemp, Bool.false_eq_true, if_false]
  have hl1 : (List.take p img ++ List.replicate (p - img.length) 0).length = p := by
    simp; omega
  by_cases h1 : q < p
  · rw [if_pos h1, List.append_assoc, List.append_assoc, List.getElem?_append]
    by_cases h2 : q < img.length
    · have : q < (List.take p img).length := by simp; omega
      rw [if_pos this, if_pos h2, List.getElem?_take_of_lt h1]
    · have : ¬ q < (List.take p img).length := by simp; omega
      rw [if_neg this, if_neg h2, List.getElem?_append]
      have hlt : q - (List.take p img).length < (List.replicate (p - img.length) 0).length := by
        simp; omega
      rw [if_pos hlt, List.getElem?_replicate]
      simp at hlt
      simp [hlt]
  · rw [if_neg h1, List.append_assoc (List.take p img ++ _), List.getElem?_append_right (by omega),
      hl1]
    by_cases h2 : q < p + d.length
    · rw [if_pos h2, List.getElem?_append_left (by omega)]
    · rw [if_neg h2, List.getElem?_append_right (by omega), List.getElem?_drop]
      congr 1; omega

/-- A write does not change what is read from a region of the image that it
does not touch. -/
theorem readAt_writeAt_of_disjoint (img : Image) (p : Nat) (d : List Nat) (q n : Nat)
    (hdis : q + n ≤ p ∨ p + d.length ≤ q) (hin : q + n ≤ img.length) :
    readAt (writeAt img p d) q n = readAt img q n := by
  by_cases hd : d = []
  · subst hd; simp [writeAt]
  have hlen := length_le_length_writeAt img p d
  unfold readAt
  rw [if_pos (by omega), if_pos hin]
  congr 1
  apply take_drop_congr
  intro i hi
  rw [getElem?_writeAt img p hd]
  rcases hdis with h | h
  · rw [if_pos (by omega), if_pos (by omega)]
  · rw [if_neg (by omega), if_neg (by omega)]

/-- Reading inside the bytes just written gives these bytes. -/
theorem readAt_writeAt_inside (img : Image) (p : Nat) (d : List Nat) (q n : Nat)
    (hn : 0 < n) (hpq : p ≤ q) (hin : q + n ≤ p + d.length) :
    readAt (writeAt img p d) q n = some ((d.drop (q - p)).take n) := by
  have hd : d ≠ [] := by
    intro h; subst h; simp at hin; omega
  have hlen := length_writeAt img p hd
  unfold readAt
  rw [if_pos (by omega)]
  congr 1
  apply List.ext_getElem?
  intro i
  rw [getElem?_take_drop, getElem?_take_drop]
  split
  · rw [getElem?_writeAt img p hd, if_neg (by omega), if_pos (by omega)]
    congr 1; omega
  · rfl

theorem readAt_writeAt_same (img : Image) (p : Nat) (d : List Nat) (hd : 0 < d.length) :
    readAt (writeAt img p d) p d.length = some d := by
  rw [readAt_writeAt_inside img p d p d.length hd (le_refl _) (le_refl _)]
  simp

/-- Outside the bytes written, and inside the old image, nothing changes. -/
theorem getElem?_writeAt_of_disjoint (img : Image) (p : Nat) (d : List Nat) (q : Nat)
    (hdis : q < p ∨ p + d.length ≤ q) (hin : q < img.length) :
    (writeAt img p d)[q]? = img[q]? := by
  by_cases hd : d = []
  · subst hd; simp [writeAt]
  rw [getElem?_writeAt img p hd]
  rcases hdis with h | h
  · rw [if_pos h, if_pos hin]
  · rw [if_neg (by omega), if_neg (by omega)]

/-! ### FAT chains -/

theorem read_link_of_fat_entry {img : Image} {fs bs b v : Nat}
    (h : fat_entry img fs bs b = some v) : read_link img fs bs b = v := by
  obtain ⟨w, hw, hv⟩ := fat_entry_eq_some_iff.1 h
  obtain ⟨hle, hweq⟩ := readAt_eq_some_iff.1 hw
  have hlen : w.length = 4 := length_of_readAt hw
  unfold read_link
  have : fs * bs + b * 4 = fs * bs + 4 * b := by omega
  simp only [this, ← hweq, hlen]
  have : (hostBytes b).drop 4 = [] := by simp [hostBytes]
  rw [this, List.append_nil, hv]

theorem fat_chain_succ {img : Image} {fs bs fuel b : Nat} {l : List Nat}
    (h : fat_chain img fs bs (fuel + 1) b = some l) :
    (b = FAT_EOF ∧ l = []) ∨
    (b ≠ FAT_EOF ∧ ∃ next rest, fat_entry img fs bs b = some next ∧
      fat_chain img fs bs fuel next = some rest ∧ l = b :: rest) := by
  rw [fat_chain] at h
  by_cases hb : b = FAT_EOF
  · left
    rw [if_pos hb] at h
    exact ⟨hb, by simpa using h.symm⟩
  · right
    rw [if_neg hb] at h
    refine ⟨hb, ?_⟩
    cases he : fat_entry img fs bs b with
    | none => rw [he] at h; simp at h
    | some next =>
      rw [he] at h
      simp only at h
      cases hr : fat_chain img fs bs fuel next with
      | none => rw [hr] at h; simp at h
      | some rest =>
        rw [hr] at h
        simp at h
        exact ⟨next, rest, rfl, hr, h.symm⟩

theorem fat_chain_nil {img : Image} {fs bs fuel b : Nat}
    (h : fat_chain img fs bs fuel b = some []) : b = FAT_EOF := by
  cases fuel with
  | zero => simp [fat_chain] at h
  | succ fuel =>
    rcases fat_chain_succ h with ⟨hb, _⟩ | ⟨_, next, rest, _, _, hl⟩
    · exact hb
    · cases hl

theorem fat_chain_cons {img : Image} {fs bs fuel b c : Nat} {rest : List Nat}
    (h : fat_chain img fs bs fuel b = some (c :: rest)) :
    b = c ∧ c ≠ FAT_EOF ∧ ∃ next fuel1, fat_entry img fs bs c = some next ∧
      fat_chain img fs bs fuel1 next = some rest := by
  cases fuel with
  | zero => simp [fat_chain] at h
  | succ fuel =>
    rcases fat_chain_succ h with ⟨_, hl⟩ | ⟨hb, next, rest1, he, hr, hl⟩
    · cases hl
    · injection hl with h1 h2
      subst h1; subst h2
      exact ⟨rfl, hb, next, fuel, he, hr⟩

/-- The chain from a block does not depend on the fuel. -/
theorem fat_chain_unique {img : Image} {fs bs : Nat} :
    ∀ (l1 : List Nat) {l2 : List Nat} {f1 f2 b : Nat},
      fat_chain img fs bs f1 b = some l1 → fat_chain img fs bs f2 b = some l2 → l1 = l2 := by
  intro l1
  induction l1 with
  | nil =>
    intro l2 f1 f2 b h1 h2
    have hb := fat_chain_nil h1
    cases l2 with
    | nil => rfl
    | cons c rest => exact absurd hb ((fat_chain_cons h2).1 ▸ (fat_chain_cons h2).2.1)
  | cons c rest ih =>
    intro l2 f1 f2 b h1 h2
    obtain ⟨hbc, hc, next, g1, he, hr⟩ := fat_chain_cons h1
    cases l2 with
    | nil => exact absurd (fat_chain_nil h2) (hbc ▸ hc)
    | cons c2 rest2 =>
      obtain ⟨hbc2, _, next2, g2, he2, hr2⟩ := fat_chain_cons h2
      have hcc : c = c2 := hbc.symm.trans hbc2
      subst hcc
      rw [he] at he2
      injection he2 with hn
      subst hn
      rw [ih hr hr2]

/-- A chain with fuel to spare. -/
theorem fat_chain_of_cons {img : Image} {fs bs c next fuel : Nat} {rest : List Nat}
    (hc : c ≠ FAT_EOF) (he : fat_entry img fs bs c = some next)
    (hr : fat_chain img fs bs fuel next = some rest) :
    fat_chain img fs bs (fuel + 1) c = some (c :: rest) := by
  rw [fat_chain, if_neg hc, he]
  simp [hr]

/-- Every block of a chain starts the rest of the chain. -/
theorem fat_chain_suffix {img : Image} {fs bs : Nat} :
    ∀ (pre : List Nat) {post : List Nat} {fuel b c : Nat},
      fat_chain img fs bs fuel b = some (pre ++ c :: post) →
      ∃ fuel1, fat_chain img fs bs fuel1 c = some (c :: post) := by
  intro pre
  induction pre with
  | nil =>
    intro post fuel b c h
    obtain ⟨hbc, _⟩ := fat_chain_cons h
    exact ⟨fuel, hbc ▸ h⟩
  | cons a pre ih =>
    intro post fuel b c h
    obtain ⟨_, _, next, g, _, hr⟩ := fat_chain_cons h
    exact ih hr

theorem fat_chain_nodup {img : Image} {fs bs : Nat} :
    ∀ (l : List Nat) {fuel b : Nat}, fat_chain img fs bs fuel b = some l → l.Nodup := by
  intro l
  induction l with
  | nil => intro _ _ _; exact List.nodup_nil
  | cons c rest ih =>
    intro fuel b h
    obtain ⟨hbc, hc, next, g, he, hr⟩ := fat_chain_cons h
    refine List.nodup_cons.2 ⟨?_, ih hr⟩
    intro hmem
    obtain ⟨pre, post, hsplit⟩ := List.append_of_mem hmem
    rw [hsplit] at hr
    obtain ⟨g1, hg1⟩ := fat_chain_suffix pre hr
    have h2 : fat_chain img fs bs fuel c = some (c :: (pre ++ c :: post)) := by
      rw [← hsplit, ← hbc]; rw [hbc] at h; rw [hbc]; exact h
    have := fat_chain_unique _ hg1 h2
    have hlen := congrArg List.length this
    simp at hlen
    omega

theorem fat_chain_mem_lt {img : Image} {fs bs : Nat} :
    ∀ (l : List Nat) {fuel b : Nat}, fat_chain img fs bs fuel b = some l →
      ∀ c ∈ l, ∃ v, fat_entry img fs bs c = some v := by
  intro l
  induction l with
  | nil => intro _ _ _ c hc; cases hc
  | cons a rest ih =>
    intro fuel b h c hc
    obtain ⟨_, _, next, g, he, hr⟩ := fat_chain_cons h
    rcases List.mem_cons.1 hc with rfl | hmem
    · exact ⟨next, he⟩
    · exact ih hr c hmem

/-- A chain that ends has fewer blocks than the image has bytes. -/
theorem fat_chain_length_le {img : Image} {fs bs fuel b : Nat} {l : List Nat}
    (h : fat_chain img fs bs fuel b = some l) : l.length ≤ img.length := by
  have hnd := fat_chain_nodup l h
  have hsub : l ⊆ List.range img.length := by
    intro c hc
    obtain ⟨v, hv⟩ := fat_chain_mem_lt l h c hc
    obtain ⟨w, hw, _⟩ := fat_entry_eq_some_iff.1 hv
    have := readAt_some_le hw
    exact List.mem_range.2 (by omega)
  have := (List.subperm_of_subset hnd hsub).length_le
  simpa using this

/-! ### `list_directory` prints one line for each occupied slot -/

theorem slot_at_none_of_le {img : Image} {bs b i j : Nat}
    (h : slot_at img bs b i = none) (hij : i ≤ j) : slot_at img bs b j = none := by
  unfold slot_at at h ⊢
  rw [readAt_eq_none_iff] at h ⊢
  unfold DIR_ENTRY_SIZE at h ⊢
  omega

theorem countP_range'_eq_zero (p : Nat → Bool) :
    ∀ n i, (∀ j, i ≤ j → p j = false) → (List.range' i n).countP p = 0 := by
  intro n
  induction n with
  | zero => intro i _; rfl
  | succ n ih =>
    intro i h
    rw [List.range'_succ, List.countP_cons, h i (le_refl _), ih (i + 1) (fun j hj => h j (by omega))]
    rfl

theorem list_block_length (img : Image) (bs b : Nat) :
    ∀ n i, (list_block img (b * bs) i n).length
      = (List.range' i n).countP (fun j => slot_occupied img bs b j) := by
  intro n
  induction n with
  | zero => intro i; rfl
  | succ n ih =>
    intro i
    rw [list_block, List.range'_succ, List.countP_cons]
    cases hr : readAt img (b * bs + DIR_ENTRY_SIZE * i) DIR_ENTRY_SIZE with
    | none =>
      have hnone : slot_at img bs b i = none := hr
      have hall : ∀ j, i ≤ j → slot_occupied img bs b j = false := by
        intro j hj
        simp [slot_occupied, slot_at_none_of_le hnone hj]
      rw [hall i (le_refl _), countP_range'_eq_zero _ n (i + 1) (fun j hj => hall j (by omega))]
      rfl
    | some e =>
      have hsome : slot_at img bs b i = some e := hr
      by_cases hst : entry_status e = 0
      · simp [hst, slot_occupied, hsome, ih]
      · simp [hst, slot_occupied, hsome, ih]

theorem list_directory_loop_length (img : Image) (fs bs : Nat) :
    ∀ (chain : List Nat) (fuelc cur fuel : Nat),
      fat_chain img fs bs fuelc cur = some chain → chain.length < fuel →
      ∃ lines, list_directory_loop img fs bs fuel cur = some lines ∧
        lines.length = (chain.map (occupied_slots img bs)).sum := by
  intro chain
  induction chain with
  | nil =>
    intro fuelc cur fuel h hf
    obtain ⟨fuel', rfl⟩ : ∃ f, fuel = f + 1 := ⟨fuel - 1, by simp at hf; omega⟩
    have hcur := fat_chain_nil h
    exact ⟨[], by rw [list_directory_loop, if_pos hcur], rfl⟩
  | cons c rest ih =>
    intro fuelc cur fuel h hf
    obtain ⟨fuel', rfl⟩ : ∃ f, fuel = f + 1 := ⟨fuel - 1, by simp at hf; omega⟩
    obtain ⟨hbc, hc, next, g, he, hr⟩ := fat_chain_cons h
    subst hbc
    obtain ⟨later, hl, hlen⟩ := ih g next fuel' hr (by simp at hf; omega)
    refine ⟨list_block img (cur * bs) 0 (bs / DIR_ENTRY_SIZE) ++ later, ?_, ?_⟩
    · rw [list_directory_loop, if_neg hc, read_link_of_fat_entry he, hl]
    · simp only [List.length_append, List.map_cons, List.sum_cons, hlen]
      rw [list_block_length, occupied_slots, List.range_eq_range']

/-- C20: `list_directory` prints one line for each occupied entry.  For an
image of less than `2^32` bytes and a directory whose FAT chain from its first
block reaches the terminator, `list_directory` returns and the number of lines
it prints is the number of slots with a non-zero status byte, summed over the
blocks of the chain; when no slot of the chain is occupied it prints
nothing. -/
theorem list_directory_line_count (img : Image) (fat_start block_size start_block : Nat)
    (fuel : Nat) (chain : List Nat) (hlen : img.length < 4294967296)
    (hchain : fat_chain img fat_start block_size fuel start_block = some chain) :
    ∃ lines, list_directory img fat_start block_size start_block = some lines ∧
      lines.length = (chain.map (occupied_slots img block_size)).sum ∧
      ((∀ b ∈ chain, ∀ i, i < block_size / 64 → slot_occupied img block_size b i = false) →
        lines = []) := by
  have hcl := fat_chain_length_le hchain
  obtain ⟨lines, h1, h2⟩ := list_directory_loop_length img fat_start block_size chain fuel
    start_block loopBound hchain (by unfold loopBound; omega)
  refine ⟨lines, h1, h2, ?_⟩
  intro hall
  have hzero : (chain.map (occupied_slots img block_size)).sum = 0 := by
    apply List.sum_eq_zero
    intro x hx
    obtain ⟨b, hb, rfl⟩ := List.mem_map.1 hx
    unfold occupied_slots DIR_ENTRY_SIZE
    rw [List.countP_eq_zero]
    intro i hi
    simp [hall b hb i (List.mem_range.1 hi)]
  rw [hzero] at h2
  exact List.length_eq_zero.1 h2

set_option maxRecDepth 1000000 in
/-- Witness for C20: the root directory of the image whose root is the chain
2 -> 5. -/
theorem list_directory_line_count_witness :
    ∃ lines, list_directory chainImage 1 64 2 = some lines ∧
      lines.length = ([2, 5].map (occupied_slots chainImage 64)).sum ∧
      ((∀ b ∈ [2, 5], ∀ i, i < 64 / 64 → slot_occupied chainImage 64 b i = false) →
        lines = []) :=
  list_directory_line_count chainImage 1 64 2 16 [2, 5] (by decide) (by decide)

/-! ### `write_entry`: the walk over the directory -/

theorem slot_at_eq (img : Image) (bs b i : Nat) :
    slot_at img bs b i = readAt img (b * bs + i * DIR_ENTRY_SIZE) DIR_ENTRY_SIZE := by
  unfold slot_at
  rw [Nat.mul_comm DIR_ENTRY_SIZE i]

theorem slot_free_eq_true {img : Image} {bs b i : Nat} (h : slot_free img bs b i = true) :
    ∃ e, slot_at img bs b i = some e ∧ entry_status e = 0 := by
  unfold slot_free at h
  cases hs : slot_at img bs b i with
  | none => rw [hs] at h; cases h
  | some e => rw [hs] at h; exact ⟨e, rfl, by simpa using h⟩

theorem slot_at_some_of_le {img : Image} {bs b i j : Nat} {e : List Nat}
    (h : slot_at img bs b j = some e) (hij : i ≤ j) : ∃ e1, slot_at img bs b i = some e1 := by
  cases hs : slot_at img bs b i with
  | none => rw [slot_at_none_of_le hs hij] at h; cases h
  | some e1 => exact ⟨e1, rfl⟩

/-- A block without a free slot: the inner loop of `write_entry` writes
nothing. -/
theorem write_entry_block_none (img : Image) (bs b : Nat) (entry : List Nat) :
    ∀ n i, (∀ j, i ≤ j → j < i + n → slot_free img bs b j = false) →
      write_entry_block img (b * bs) entry i n = none := by
  intro n
  induction n with
  | zero => intro i _; rfl
  | succ n ih =>
    intro i h
    rw [write_entry_block, ← slot_at_eq]
    cases hs : slot_at img bs b i with
    | none => rfl
    | some e =>
      have hi := h i (le_refl _) (by omega)
      simp only [slot_free, hs, beq_eq_false_iff_ne, ne_eq] at hi
      simp only [hi, if_false]
      exact ih (i + 1) (fun j h1 h2 => h j (by omega) (by omega))

/-- The inner loop of `write_entry` writes the entry into the first free slot
of the block. -/
theorem write_entry_block_first (img : Image) (bs b : Nat) (entry : List Nat) (j0 : Nat)
    (hfree : slot_free img bs b j0 = true) :
    ∀ n i, i ≤ j0 → j0 < i + n → (∀ j, i ≤ j → j < j0 → slot_free img bs b j = false) →
      write_entry_block img (b * bs) entry i n
        = some (writeAt img (b * bs + j0 * DIR_ENTRY_SIZE) entry) := by
  obtain ⟨e0, he0, hst0⟩ := slot_free_eq_true hfree
  intro n
  induction n with
  | zero => intro i h1 h2 _; omega
  | succ n ih =>
    intro i h1 h2 hbefore
    rw [write_entry_block, ← slot_at_eq]
    by_cases hij : i = j0
    · subst hij
      rw [he0]
      simp [hst0]
    · obtain ⟨e, he⟩ := slot_at_some_of_le he0 h1
      have hi := hbefore i (le_refl _) (by omega)
      simp only [slot_free, he, beq_eq_false_iff_ne, ne_eq] at hi
      rw [he]
      simp only [hi, if_false]
      exact ih (i + 1) (by omega) (by omega) (fun j h3 h4 => hbefore j (by omega) h4)

/-- The walk of `write_entry` over a chain whose first free slot is slot `i`
of block `b`. -/
theorem write_entry_walk_first (img : Image) (fs bs : Nat) (entry : List Nat) (b i : Nat)
    (post : List Nat) (hi : i < bs / 64) (hfree : slot_free img bs b i = true)
    (hbefore : ∀ j, j < i → slot_free img bs b j = false) :
    ∀ (pre : List Nat) (fuelc cur fuel last : Nat),
      fat_chain img fs bs fuelc cur = some (pre ++ b :: post) →
      (∀ c ∈ pre, ∀ j, j < bs / 64 → slot_free img bs c j = false) →
      pre.length < fuel →
      write_entry_walk img fs bs entry fuel cur last
        = some (Sum.inl (writeAt img (b * bs + i * DIR_ENTRY_SIZE) entry)) := by
  intro pre
  induction pre with
  | nil =>
    intro fuelc cur fuel last h _ hf
    obtain ⟨fuel', rfl⟩ : ∃ f, fuel = f + 1 := ⟨fuel - 1, by omega⟩
    obtain ⟨hbc, hc, _⟩ := fat_chain_cons h
    subst hbc
    rw [write_entry_walk, if_neg hc,
      write_entry_block_first img bs cur entry i hfree (bs / DIR_ENTRY_SIZE) 0 (Nat.zero_le _)
        (by simpa [DIR_ENTRY_SIZE] using hi) (fun j _ h2 => hbefore j h2)]
  | cons c pre ih =>
    intro fuelc cur fuel last h hpre hf
    obtain ⟨fuel', rfl⟩ : ∃ f, fuel = f + 1 := ⟨fuel - 1, by omega⟩
    obtain ⟨hbc, hc, next, g, he, hr⟩ := fat_chain_cons h
    subst hbc
    rw [write_entry_walk, if_neg hc,
      write_entry_block_none img bs cur entry (bs / DIR_ENTRY_SIZE) 0
        (fun j _ h2 => hpre cur (List.mem_cons_self _ _) j (by simpa [DIR_ENTRY_SIZE] using h2))]
    simp only
    rw [read_link_of_fat_entry he]
    exact ih g next fuel' cur hr (fun c hc => hpre c (List.mem_cons_of_mem _ hc))
      (by simp at hf; omega)

/-- C11: `write_entry` reuses the first free slot and touches nothing else.
For an image of less than `2^32` bytes and a directory whose FAT chain reaches
the terminator, let slot `i` of block `b` be the first slot with status byte 0,
in chain order and then in slot order (no block before `b` in the chain has a
free slot, no slot before `i` in `b` is free).  Then `write_entry` with an
entry of 64 bytes returns 1, the image keeps its length, the slot holds the
entry afterwards and every byte outside the 64 bytes of the slot is
unchanged. -/
theorem write_entry_reuses_first_free_slot (img : Image)
    (fat_start block_size dir_start : Nat) (entry : List Nat) (fuel : Nat)
    (pre : List Nat) (b : Nat) (post : List Nat) (i : Nat)
    (hlen : img.length < 4294967296) (hentry : entry.length = 64)
    (hchain : fat_chain img fat_start block_size fuel dir_start = some (pre ++ b :: post))
    (hpre : ∀ c ∈ pre, ∀ j, j < block_size / 64 → slot_free img block_size c j = false)
    (hi : i < block_size / 64) (hfree : slot_free img block_size b i = true)
    (hbefore : ∀ j, j < i → slot_free img block_size b j = false) :
    ∃ img1, write_entry img dir_start block_size fat_start entry = some (1, img1) ∧
      img1.length = img.length ∧
      slot_at img1 block_size b i = some entry ∧
      ∀ q, (q < b * block_size + 64 * i ∨ b * block_size + 64 * i + 64 ≤ q) →
        img1[q]? = img[q]? := by
  have hcl := fat_chain_length_le hchain
  have hwalk := write_entry_walk_first img fat_start block_size entry b i post hi hfree hbefore
    pre fuel dir_start loopBound dir_start hchain hpre
    (by unfold loopBound; simp at hcl; omega)
  obtain ⟨e0, he0, _⟩ := slot_free_eq_true hfree
  have hin : b * block_size + i * DIR_ENTRY_SIZE + entry.length ≤ img.length := by
    rw [slot_at_eq] at he0
    have := readAt_some_le he0
    rw [hentry]; exact this
  have hl : (writeAt img (b * block_size + i * DIR_ENTRY_SIZE) entry).length = img.length :=
    length_writeAt_of_le _ _ _ hin
  refine ⟨writeAt img (b * block_size + i * DIR_ENTRY_SIZE) entry, ?_, hl, ?_, ?_⟩
  · unfold write_entry
    rw [hwalk]
  · rw [slot_at_eq]
    have := readAt_writeAt_same img (b * block_size + i * DIR_ENTRY_SIZE) entry (by omega)
    rw [hentry] at this
    exact this
  · intro q hq
    by_cases hql : q < img.length
    · apply getElem?_writeAt_of_disjoint _ _ _ _ _ hql
      unfold DIR_ENTRY_SIZE
      omega
    · rw [List.getElem?_eq_none (by omega), List.getElem?_eq_none (by omega)]

set_option maxRecDepth 1000000 in
/-- Witness for C11: the root directory 2 -> 5 whose first free slot is slot 0
of block 5, and a new entry for a directory "c". -/
theorem write_entry_reuses_first_free_slot_witness :
    ∃ img1, write_entry tailFreeImage 2 64 1 (make_entry 4 7 1 0 [99] exampleTime)
        = some (1, img1) ∧
      img1.length = tailFreeImage.length ∧
      slot_at img1 64 5 0 = some (make_entry 4 7 1 0 [99] exampleTime) ∧
      ∀ q, (q < 5 * 64 + 64 * 0 ∨ 5 * 64 + 64 * 0 + 64 ≤ q) →
        img1[q]? = tailFreeImage[q]? :=
  write_entry_reuses_first_free_slot tailFreeImage 1 64 2
    (make_entry 4 7 1 0 [99] exampleTime) 16 [2] 5 [] 0
    (by decide) (by decide) (by decide) (by decide) (by decide) (by decide) (by decide)

/-! ### `write_entry`: growing a full directory -/

theorem beVal_htonl (v : Nat) (h : v < 4294967296) : beVal (htonl v) = v := by
  simp only [beVal, htonl, List.foldl_cons, List.foldl_nil]
  omega

theorem scan_entries_found_inv (img : Image) (off : Nat) :
    ∀ n i0 i, scan_entries img off i0 n = Scan.found i →
      ∃ w, readAt img (off + 4 * i) 4 = some w ∧ beVal w = 0 := by
  intro n
  induction n with
  | zero => intro i0 i h; simp [scan_entries] at h
  | succ n ih =>
    intro i0 i h
    rw [scan_entries] at h
    cases hr : readAt img (off + 4 * i0) 4 with
    | none => rw [hr] at h; simp at h
    | some w =>
      rw [hr] at h
      simp only at h
      by_cases hz : beVal w = 0
      · rw [if_pos hz] at h
        injection h with h
        subst h
        exact ⟨w, hr, hz⟩
      · rw [if_neg hz] at h
        exact ih (i0 + 1) i h

theorem allocate_block_loop_cases (img : Image) (fs bs : Nat) :
    ∀ fuel b k img0, allocate_block_loop img fs bs fuel b = some (k, img0) →
      (k = 0 ∧ img0 = img) ∨
      ∃ b1 i, scan_entries img (fs * bs + b1 * bs % U32) 0 (bs / 4) = Scan.found i := by
  intro fuel
  induction fuel with
  | zero => intro b k img0 h; simp [allocate_block_loop] at h
  | succ fuel ih =>
    intro b k img0 h
    rw [allocate_block_loop] at h
    cases hs : scan_entries img (fs * bs + b * bs % U32) 0 (bs / 4) with
    | found i => exact Or.inr ⟨b, i, hs⟩
    | eof =>
      simp only [hs, Option.some.injEq, Prod.mk.injEq] at h
      exact Or.inl ⟨h.1.symm, h.2.symm⟩
    | done =>
      simp only [hs] at h
      exact ih _ k img0 h

/-- What a successful call of `allocate_block` tells about the image, for a
block size that is a positive multiple of 4 and an image below `2^32` bytes:
the FAT entry of the block returned reads 0. -/
theorem allocate_block_nonzero (img : Image) (fs bs k : Nat) (img0 : Image)
    (h4 : 4 ∣ bs) (hpos : 0 < bs) (hlen : img.length < 4294967296)
    (h : allocate_block img fs bs = some (k, img0)) (hk : k ≠ 0) :
    fat_entry img fs bs k = some 0 ∧ img.length ≤ img0.length := by
  classical
  rcases allocate_block_loop_cases img fs bs loopBound 0 k img0 h with ⟨h0, _⟩ | ⟨b1, i, hs⟩
  · exact absurd h0 hk
  obtain ⟨w, hw, hz⟩ := scan_entries_found_inv img _ _ _ _ hs
  obtain ⟨be, rfl⟩ := h4
  have hbe : 0 < be := by omega
  have hdvd : 4 ∣ b1 * (4 * be) % U32 :=
    (Nat.dvd_mod_iff (by unfold U32; decide)).2 ⟨b1 * be, by ring⟩
  obtain ⟨m, hm⟩ := hdvd
  have hfree : ∃ j, fat_entry img fs (4 * be) j = some 0 := by
    refine ⟨m + i, fat_entry_eq_some_iff.2 ⟨w, ?_, hz⟩⟩
    rw [← hw, hm]; congr 1; ring
  have hkf := Nat.find_spec hfree
  have hmin : ∀ j, j < Nat.find hfree → fat_entry img fs (4 * be) j ≠ some 0 :=
    fun j hj => Nat.find_min hfree hj
  have hkoff : fs * (4 * be) + 4 * Nat.find hfree + 4 ≤ img.length := by
    obtain ⟨w1, hw1, _⟩ := fat_entry_eq_some_iff.1 hkf
    exact readAt_some_le hw1
  have hdiv : Nat.find hfree / be ≤ Nat.find hfree := Nat.div_le_self _ _
  have hres := allocate_block_loop_first_free img fs be (Nat.find hfree) hbe hlen hkf hmin
    (Nat.find hfree / be) 0 loopBound (by omega) (by unfold loopBound; omega)
  unfold allocate_block at h
  rw [hres] at h
  simp only [Option.some.injEq, Prod.mk.injEq] at h
  obtain ⟨h1, h2⟩ := h
  rw [← h1, ← h2]
  exact ⟨hkf, length_le_length_writeAt _ _ _⟩

/-- The walk of `write_entry` over a chain without a free slot ends behind
the last block. -/
theorem write_entry_walk_full (img : Image) (fs bs : Nat) (entry : List Nat) :
    ∀ (chain : List Nat) (fuelc cur fuel last : Nat),
      fat_chain img fs bs fuelc cur = some chain →
      (∀ c ∈ chain, ∀ j, j < bs / 64 → slot_free img bs c j = false) →
      chain.length < fuel →
      write_entry_walk img fs bs entry fuel cur last
        = some (Sum.inr (chain.getLast?.getD last)) := by
  intro chain
  induction chain with
  | nil =>
    intro fuelc cur fuel last h _ hf
    obtain ⟨fuel', rfl⟩ : ∃ f, fuel = f + 1 := ⟨fuel - 1, by simp at hf; omega⟩
    rw [write_entry_walk, if_pos (fat_chain_nil h)]
    rfl
  | cons c rest ih =>
    intro fuelc cur fuel last h hfull hf
    obtain ⟨fuel', rfl⟩ : ∃ f, fuel = f + 1 := ⟨fuel - 1, by simp at hf; omega⟩
    obtain ⟨hbc, hc, next, g, he, hr⟩ := fat_chain_cons h
    subst hbc
    rw [write_entry_walk, if_neg hc,
      write_entry_block_none img bs cur entry (bs / DIR_ENTRY_SIZE) 0
        (fun j _ h2 => hfull cur (List.mem_cons_self _ _) j (by simpa [DIR_ENTRY_SIZE] using h2))]
    simp only
    rw [read_link_of_fat_entry he,
      ih g next fuel' cur hr (fun c hc => hfull c (List.mem_cons_of_mem _ hc))
        (by simp at hf; omega)]
    cases rest with
    | nil => rfl
    | cons d rest2 =>
      simp [List.getLast?_cons_cons, List.getLast?_eq_getLast _ (List.cons_ne_nil d rest2)]

/-- The last block of a chain points to the terminator. -/
theorem fat_chain_last {img : Image} {fs bs : Nat} :
    ∀ (pre : List Nat) {tail fuel b : Nat},
      fat_chain img fs bs fuel b = some (pre ++ [tail]) →
      fat_entry img fs bs tail = some FAT_EOF := by
  intro pre
  induction pre with
  | nil =>
    intro tail fuel b h
    obtain ⟨_, _, next, g, he, hr⟩ := fat_chain_cons h
    rw [he, fat_chain_nil hr]
  | cons a pre ih =>
    intro tail fuel b h
    obtain ⟨_, _, next, g, _, hr⟩ := fat_chain_cons h
    exact ih hr

/-- The four writes at the end of `write_entry`, on any image that holds the
FAT entries of `tail` and `k`: the link, the terminator, the empty directory
block and the entry. -/
theorem write_entry_tail_writes (img0 : Image) (fs bs fat_blocks tail k : Nat)
    (entry : List Nat) (hbs : 64 ≤ bs) (hentry : entry.length = 64)
    (hne : k ≠ tail) (hk32 : k < 4294967296)
    (htoff : fs * bs + 4 * tail + 4 ≤ img0.length)
    (hkoff : fs * bs + 4 * k + 4 ≤ img0.length)
    (hout : k < fs ∨ fs + fat_blocks ≤ k)
    (htail_in : 4 * tail + 4 ≤ fat_blocks * bs) (hk_in : 4 * k + 4 ≤ fat_blocks * bs) :
    fat_entry (writeAt (init_directory (writeAt (writeAt img0 (fs * bs + tail * 4) (htonl k))
        (fs * bs + k * 4) (htonl FAT_EOF)) k bs) (k * bs) entry) fs bs tail = some k ∧
    fat_entry (writeAt (init_directory (writeAt (writeAt img0 (fs * bs + tail * 4) (htonl k))
        (fs * bs + k * 4) (htonl FAT_EOF)) k bs) (k * bs) entry) fs bs k = some FAT_EOF ∧
    slot_at (writeAt (init_directory (writeAt (writeAt img0 (fs * bs + tail * 4) (htonl k))
        (fs * bs + k * 4) (htonl FAT_EOF)) k bs) (k * bs) entry) bs k 0 = some entry ∧
    ∀ j, 0 < j → j < bs / 64 →
      slot_at (writeAt (init_directory (writeAt (writeAt img0 (fs * bs + tail * 4) (htonl k))
        (fs * bs + k * 4) (htonl FAT_EOF)) k bs) (k * bs) entry) bs k j
        = some (List.replicate 64 0) := by
  -- the block `k` and the two FAT entries do not overlap
  have hdis : ∀ x, 4 * x + 4 ≤ fat_blocks * bs →
      fs * bs + 4 * x + 4 ≤ k * bs ∨ k * bs + bs ≤ fs * bs + 4 * x := by
    intro x hx
    rcases hout with h | h
    · right
      have : (k + 1) * bs ≤ fs * bs := Nat.mul_le_mul_right _ h
      rw [Nat.add_mul, Nat.one_mul] at this
      omega
    · left
      have : (fs + fat_blocks) * bs ≤ k * bs := Nat.mul_le_mul_right _ h
      rw [Nat.add_mul] at this
      omega
  have hz1 : bs / 64 * 64 ≤ bs := Nat.div_mul_le_self _ _
  have hz2 : 64 ≤ bs / 64 * 64 := by omega
  -- the link
  have e2 : img0.length ≤ (writeAt img0 (fs * bs + tail * 4) (htonl k)).length :=
    length_le_length_writeAt _ _ _
  have r2 : readAt (writeAt img0 (fs * bs + tail * 4) (htonl k)) (fs * bs + 4 * tail) 4
      = some (htonl k) := by
    rw [Nat.mul_comm tail 4]
    exact readAt_writeAt_same img0 _ (htonl k) (by simp [htonl])
  generalize writeAt img0 (fs * bs + tail * 4) (htonl k) = img2 at e2 r2 ⊢
  -- the terminator
  have e3 : img2.length ≤ (writeAt img2 (fs * bs + k * 4) (htonl FAT_EOF)).length :=
    length_le_length_writeAt _ _ _
  have r3k : readAt (writeAt img2 (fs * bs + k * 4) (htonl FAT_EOF)) (fs * bs + 4 * k) 4
      = some (htonl FAT_EOF) := by
    rw [Nat.mul_comm k 4]
    exact readAt_writeAt_same img2 _ (htonl FAT_EOF) (by simp [htonl])
  have r3t : readAt (writeAt img2 (fs * bs + k * 4) (htonl FAT_EOF)) (fs * bs + 4 * tail) 4
      = some (htonl k) := by
    rw [readAt_writeAt_of_disjoint _ _ _ _ _ (by simp [htonl]; omega) (by omega), r2]
  generalize writeAt img2 (fs * bs + k * 4) (htonl FAT_EOF) = img3 at e3 r3k r3t ⊢
  -- the empty directory block
  unfold init_directory DIR_ENTRY_SIZE
  have hzl : (List.replicate (bs / 64 * 64) 0).length = bs / 64 * 64 := List.length_replicate _ _
  have e4 : (writeAt img3 (k * bs) (List.replicate (bs / 64 * 64) 0)).length
      = max img3.length (k * bs + bs / 64 * 64) := by
    rw [length_writeAt _ _ (by intro h; have := congrArg List.length h; simp at this; omega), hzl]
  have r4 : ∀ x, 4 * x + 4 ≤ fat_blocks * bs → fs * bs + 4 * x + 4 ≤ img3.length →
      readAt (writeAt img3 (k * bs) (List.replicate (bs / 64 * 64) 0)) (fs * bs + 4 * x) 4
        = readAt img3 (fs * bs + 4 * x) 4 := by
    intro x hx hxl
    apply readAt_writeAt_of_disjoint _ _ _ _ _ _ hxl
    rw [hzl]
    rcases hdis x hx with h | h
    · left; omega
    · right; omega
  have s4 : ∀ j, 0 < j → j < bs / 64 →
      readAt (writeAt img3 (k * bs) (List.replicate (bs / 64 * 64) 0)) (k * bs + 64 * j) 64
        = some (List.replicate 64 0) := by
    intro j hj0 hj
    have hj1 : 64 * j + 64 ≤ bs / 64 * 64 := by
      have : (j + 1) * 64 ≤ bs / 64 * 64 := Nat.mul_le_mul_right _ hj
      omega
    rw [readAt_writeAt_inside _ _ _ _ _ (by decide) (by omega) (by rw [hzl]; omega)]
    simp only [List.drop_replicate, List.take_replicate]
    congr 2
    omega
  generalize writeAt img3 (k * bs) (List.replicate (bs / 64 * 64) 0) = img4 at e4 r4 s4 ⊢
  -- the entry
  have r5 : ∀ x, 4 * x + 4 ≤ fat_blocks * bs → fs * bs + 4 * x + 4 ≤ img3.length →
      readAt (writeAt img4 (k * bs) entry) (fs * bs + 4 * x) 4
        = readAt img3 (fs * bs + 4 * x) 4 := by
    intro x hx hxl
    rw [readAt_writeAt_of_disjoint _ _ _ _ _ _ (by omega), r4 x hx hxl]
    rw [hentry]
    rcases hdis x hx with h | h
    · left; omega
    · right; omega
  refine ⟨?_, ?_, ?_, ?_⟩
  · unfold fat_entry
    rw [r5 tail htail_in (by omega), r3t]
    simp [beVal_htonl k hk32]
  · unfold fat_entry
    rw [r5 k hk_in (by omega), r3k]
    simp [beVal_htonl FAT_EOF (by decide)]
  · unfold slot_at DIR_ENTRY_SIZE
    have := readAt_writeAt_same img4 (k * bs) entry (by omega)
    rw [hentry] at this
    simpa using this
  · intro j hj0 hj
    unfold slot_at DIR_ENTRY_SIZE
    have hj1 : 64 * j + 64 ≤ bs / 64 * 64 := by
      have : (j + 1) * 64 ≤ bs / 64 * 64 := Nat.mul_le_mul_right _ hj
      omega
    rw [readAt_writeAt_of_disjoint _ _ _ _ _ (by rw [hentry]; omega) (by omega), s4 j hj0 hj]

/-- C12: `write_entry` grows a full directory.  Take an image of less than
`2^32` bytes with a block size that is a multiple of 4 and at least 64, and a
directory whose FAT chain reaches the terminator behind its last block `tail`
and has no slot with status byte 0.  Let `allocate_block` return a block
`k ≠ 0` that lies outside the FAT region (`fat_blocks` blocks from
`fat_start`) while the FAT entries of `tail` and of `k` lie inside it.  Then
`write_entry` with an entry of 64 bytes returns 1, and afterwards the FAT
entry of `tail` is `k`, the FAT entry of `k` is `FAT_EOF`, slot 0 of block `k`
holds the entry and every other slot of block `k` is 64 zero bytes. -/
theorem write_entry_grows_full_directory (img : Image)
    (fat_start block_size fat_blocks dir_start : Nat) (entry : List Nat) (fuel : Nat)
    (pre : List Nat) (tail k : Nat) (img0 : Image)
    (h4 : 4 ∣ block_size) (hbs : 64 ≤ block_size) (hlen : img.length < 4294967296)
    (hentry : entry.length = 64)
    (hchain : fat_chain img fat_start block_size fuel dir_start = some (pre ++ [tail]))
    (hfull : ∀ c ∈ pre ++ [tail], ∀ j, j < block_size / 64 →
      slot_free img block_size c j = false)
    (halloc : allocate_block img fat_start block_size = some (k, img0)) (hk : k ≠ 0)
    (hout : k < fat_start ∨ fat_start + fat_blocks ≤ k)
    (htail_in : 4 * tail + 4 ≤ fat_blocks * block_size)
    (hk_in : 4 * k + 4 ≤ fat_blocks * block_size) :
    ∃ img1, write_entry img dir_start block_size fat_start entry = some (1, img1) ∧
      fat_entry img1 fat_start block_size tail = some k ∧
      fat_entry img1 fat_start block_size k = some FAT_EOF ∧
      slot_at img1 block_size k 0 = some entry ∧
      ∀ j, 0 < j → j < block_size / 64 →
        slot_at img1 block_size k j = some (List.replicate 64 0) := by
  have hcl := fat_chain_length_le hchain
  have hwalk := write_entry_walk_full img fat_start block_size entry (pre ++ [tail]) fuel
    dir_start loopBound dir_start hchain hfull (by unfold loopBound; omega)
  have hlast : (pre ++ [tail]).getLast?.getD dir_start = tail := by simp
  rw [hlast] at hwalk
  obtain ⟨hkfree, hlen0⟩ := allocate_block_nonzero img fat_start block_size k img0 h4
    (by omega) hlen halloc hk
  have htail_eof := fat_chain_last pre hchain
  have hne : k ≠ tail := by
    intro h
    rw [h, htail_eof] at hkfree
    exact absurd (Option.some.inj hkfree) (by decide)
  have hkoff : fat_start * block_size + 4 * k + 4 ≤ img.length := by
    obtain ⟨w, hw, _⟩ := fat_entry_eq_some_iff.1 hkfree
    exact readAt_some_le hw
  have htoff : fat_start * block_size + 4 * tail + 4 ≤ img.length := by
    obtain ⟨w, hw, _⟩ := fat_entry_eq_some_iff.1 htail_eof
    exact readAt_some_le hw
  refine ⟨_, ?_, write_entry_tail_writes img0 fat_start block_size fat_blocks tail k entry
    hbs hentry hne (by omega) (by omega) (by omega) hout htail_in hk_in⟩
  unfold write_entry
  rw [hwalk]
  simp only [halloc, hk, if_false]

set_option maxRecDepth 1000000 in
/-- Witness for C12: the full root directory (block 2, two slots) of
`wideImage`, for which `allocate_block` returns block 5. -/
theorem write_entry_grows_full_directory_witness :
    ∃ img1, write_entry wideImage 2 128 1 (make_entry 4 7 1 0 [99] exampleTime)
        = some (1, img1) ∧
      fat_entry img1 1 128 2 = some 5 ∧
      fat_entry img1 1 128 5 = some FAT_EOF ∧
      slot_at img1 128 5 0 = some (make_entry 4 7 1 0 [99] exampleTime) ∧
      ∀ j, 0 < j → j < 128 / 64 → slot_at img1 128 5 j = some (List.replicate 64 0) :=
  write_entry_grows_full_directory wideImage 1 128 1 2
    (make_entry 4 7 1 0 [99] exampleTime) 16 [] 2 5
    (writeAt wideImage 132 (htonl FAT_EOF))
    (by decide) (by decide) (by decide) (by decide) (by decide) (by decide) (by decide)
    (by decide) (by decide) (by decide) (by decide)

/-! ### `print_fat`: the three counters -/

theorem count_entry_zero (fat : Fat) (v : Nat) (hv : v = 0) (h : fat.free_blocks + 1 < U32) :
    count_entry fat v = { fat with free_blocks := fat.free_blocks + 1 } := by
  simp [count_entry, hv, Nat.mod_eq_of_lt h]

theorem count_entry_one (fat : Fat) (v : Nat) (hv : v = 1) (h : fat.reserved_blocks + 1 < U32) :
    count_entry fat v = { fat with reserved_blocks := fat.reserved_blocks + 1 } := by
  simp [count_entry, hv, Nat.mod_eq_of_lt h]

theorem count_entry_other (fat : Fat) (v : Nat) (h0 : v ≠ 0) (h1 : v ≠ 1)
    (h : fat.allocated_blocks + 1 < U32) :
    count_entry fat v = { fat with allocated_blocks := fat.allocated_blocks + 1 } := by
  simp [count_entry, h0, h1, Nat.mod_eq_of_lt h]

/-- The loop of `print_fat` adds to each counter the number of table values
of its kind, as long as no counter passes `2^32`. -/
theorem print_fat_loop_counts (table : List Nat) :
    ∀ n i (fat : Fat), fat.free_blocks + n < U32 → fat.reserved_blocks + n < U32 →
      fat.allocated_blocks + n < U32 →
      (print_fat_loop table i n fat).free_blocks
        = fat.free_blocks + (List.range' i n).countP (fun j => fat_table_word table j == 0) ∧
      (print_fat_loop table i n fat).reserved_blocks
        = fat.reserved_blocks + (List.range' i n).countP (fun j => fat_table_word table j == 1) ∧
      (print_fat_loop table i n fat).allocated_blocks
        = fat.allocated_blocks + (List.range' i n).countP
            (fun j => fat_table_word table j != 0 && fat_table_word table j != 1) := by
  intro n
  induction n with
  | zero => intro i fat _ _ _; exact ⟨rfl, rfl, rfl⟩
  | succ n ih =>
    intro i fat hf hr ha
    rw [print_fat_loop, List.range'_succ]
    simp only [List.countP_cons]
    by_cases h0 : fat_table_word table i = 0
    · rw [count_entry_zero fat _ h0 (by omega)]
      obtain ⟨a, b, c⟩ := ih (i + 1) { fat with free_blocks := fat.free_blocks + 1 }
        (by simp only []; omega) (by simp only []; omega) (by simp only []; omega)
      simp only [] at a b c
      rw [a, b, c]
      simp [h0]
      omega
    · by_cases h1 : fat_table_word table i = 1
      · rw [count_entry_one fat _ h1 (by omega)]
        obtain ⟨a, b, c⟩ := ih (i + 1) { fat with reserved_blocks := fat.reserved_blocks + 1 }
          (by simp only []; omega) (by simp only []; omega) (by simp only []; omega)
        simp only [] at a b c
        rw [a, b, c]
        simp [h1]
        omega
      · rw [count_entry_other fat _ h0 h1 (by omega)]
        obtain ⟨a, b, c⟩ := ih (i + 1) { fat with allocated_blocks := fat.allocated_blocks + 1 }
          (by simp only []; omega) (by simp only []; omega) (by simp only []; omega)
        simp only [] at a b c
        rw [a, b, c]
        simp [h0, h1]
        omega

/-- Every value is of exactly one of the three kinds. -/
theorem countP_three_kinds (f : Nat → Nat) (l : List Nat) :
    l.countP (fun j => f j == 0) + l.countP (fun j => f j == 1)
      + l.countP (fun j => f j != 0 && f j != 1) = l.length := by
  induction l with
  | nil => rfl
  | cons a l ih =>
    simp only [List.countP_cons, List.length_cons]
    by_cases h0 : f a = 0
    · simp [h0]; omega
    · by_cases h1 : f a = 1
      · simp [h1]; omega
      · simp [h0, h1]; omega

theorem take_drop_take_drop (l : List Nat) (a m b c : Nat) (h : b + c ≤ m) :
    (((l.drop a).take m).drop b).take c = (l.drop (a + b)).take c := by
  apply List.ext_getElem?
  intro i
  by_cases hi : i < c
  · rw [getElem?_take_drop, if_pos hi, getElem?_take_drop, if_pos (by omega),
      getElem?_take_drop, if_pos hi]
    congr 1; omega
  · rw [getElem?_take_drop, if_neg hi, getElem?_take_drop, if_neg hi]

/-- The table `main` loads holds the FAT entries, for a FAT that lies inside
an image of less than `2^32` bytes. -/
theorem fat_table_word_load (img : Image) (sb : SuperBlock)
    (hsmall : img.length < 4294967296)
    (hfat : sb.fat_start * sb.block_size + sb.fat_blocks * sb.block_size ≤ img.length)
    (j : Nat) (hj : j < sb.fat_blocks * sb.block_size / 4) :
    fat_entry img sb.fat_start sb.block_size j
      = some (fat_table_word (load_fat_table img sb) j) := by
  have hN : sb.fat_blocks * sb.block_size / 4 * 4 ≤ sb.fat_blocks * sb.block_size :=
    Nat.div_mul_le_self _ _
  have hsize : fat_size_of sb = sb.fat_blocks * sb.block_size := by
    unfold fat_size_of U32
    rw [Nat.mul_comm, Nat.mod_eq_of_lt (by omega)]
  have hoff : sb.block_size * sb.fat_start % U32 = sb.fat_start * sb.block_size := by
    unfold U32
    rw [Nat.mul_comm, Nat.mod_eq_of_lt (by omega)]
  have hgot : ((img.drop (sb.fat_start * sb.block_size)).take
      (sb.fat_blocks * sb.block_size / 4 * 4)).length
        = sb.fat_blocks * sb.block_size / 4 * 4 := by
    simp only [List.length_take, List.length_drop]
    omega
  unfold load_fat_table fat_table_word
  simp only [hsize, hoff, hgot, Nat.sub_self, List.replicate_zero, List.append_nil]
  rw [take_drop_take_drop _ _ _ _ _ (by omega)]
  unfold fat_entry readAt
  rw [if_pos (by omega)]
  rfl

/-- C17: the counts of `inspect` partition the FAT.  For an image of less
than `2^32` bytes whose FAT region (`fat_blocks` blocks from `fat_start`) lies
inside the image, `main` of diskinfo.c with the three counters starting at 0
ends with counters whose sum is `fat_blocks * block_size / 4`; the free count
is the number of FAT entries equal to 0, the reserved count the number equal
to 1 and the allocated count the number of all other entries. -/
theorem print_fat_counts_partition (img : Image) (sb : SuperBlock)
    (hsb : load_super_block img = some sb) (hsmall : img.length < 4294967296)
    (hfat : sb.fat_start * sb.block_size + sb.fat_blocks * sb.block_size ≤ img.length) :
    ∃ fat, diskinfo img ⟨0, 0, 0⟩ = some (sb, fat) ∧
      fat.free_blocks + fat.reserved_blocks + fat.allocated_blocks
        = sb.fat_blocks * sb.block_size / 4 ∧
      fat.free_blocks = (List.range (sb.fat_blocks * sb.block_size / 4)).countP
        (fun i => fat_entry img sb.fat_start sb.block_size i == some 0) ∧
      fat.reserved_blocks = (List.range (sb.fat_blocks * sb.block_size / 4)).countP
        (fun i => fat_entry img sb.fat_start sb.block_size i == some 1) ∧
      fat.allocated_blocks = (List.range (sb.fat_blocks * sb.block_size / 4)).countP
        (fun i => fat_entry img sb.fat_start sb.block_size i != some 0 &&
          fat_entry img sb.fat_start sb.block_size i != some 1) := by
  have hsize : fat_size_of sb = sb.fat_blocks * sb.block_size := by
    unfold fat_size_of U32
    rw [Nat.mul_comm, Nat.mod_eq_of_lt (by omega)]
  have hN : sb.fat_blocks * sb.block_size / 4 < U32 := by unfold U32; omega
  obtain ⟨a, b, c⟩ := print_fat_loop_counts (load_fat_table img sb)
    (sb.fat_blocks * sb.block_size / 4) 0 ⟨0, 0, 0⟩ (by simp only []; omega)
    (by simp only []; omega) (by simp only []; omega)
  simp only [Nat.zero_add, ← List.range_eq_range'] at a b c
  have hsum := countP_three_kinds (fat_table_word (load_fat_table img sb))
    (List.range (sb.fat_blocks * sb.block_size / 4))
  rw [List.length_range] at hsum
  have hcongr : ∀ (p q : Nat → Bool),
      (∀ j, j < sb.fat_blocks * sb.block_size / 4 → p j = q j) →
      (List.range (sb.fat_blocks * sb.block_size / 4)).countP p
        = (List.range (sb.fat_blocks * sb.block_size / 4)).countP q := by
    intro p q hpq
    apply List.countP_congr
    intro j hj
    rw [hpq j (List.mem_range.1 hj)]
  refine ⟨print_fat_loop (load_fat_table img sb) 0 (sb.fat_blocks * sb.block_size / 4)
    ⟨0, 0, 0⟩, ?_, ?_, ?_, ?_, ?_⟩
  · unfold diskinfo print_fat
    rw [hsb]
    simp only [hsize, hN, if_true]
  · rw [a, b, c]; exact hsum
  · rw [a]
    apply hcongr
    intro j hj
    rw [fat_table_word_load img sb hsmall hfat j hj]
    simp
  · rw [b]
    apply hcongr
    intro j hj
    rw [fat_table_word_load img sb hsmall hfat j hj]
    simp
  · rw [c]
    apply hcongr
    intro j hj
    rw [fat_table_word_load img sb hsmall hfat j hj]
    simp [bne]

set_option maxRecDepth 1000000 in
/-- Witness for C17 on the fresh image: 13 free, 2 reserved and 1 allocated
entries. -/
theorem print_fat_counts_partition_witness :
    ∃ fat, diskinfo freshImage ⟨0, 0, 0⟩ = some (⟨64, 16, 1, 1, 2, 1⟩, fat) ∧
      fat.free_blocks + fat.reserved_blocks + fat.allocated_blocks = 1 * 64 / 4 ∧
      fat.free_blocks = (List.range (1 * 64 / 4)).countP
        (fun i => fat_entry freshImage 1 64 i == some 0) ∧
      fat.reserved_blocks = (List.range (1 * 64 / 4)).countP
        (fun i => fat_entry freshImage 1 64 i == some 1) ∧
      fat.allocated_blocks = (List.range (1 * 64 / 4)).countP
        (fun i => fat_entry freshImage 1 64 i != some 0 &&
          fat_entry freshImage 1 64 i != some 1) :=
  print_fat_counts_partition freshImage ⟨64, 16, 1, 1, 2, 1⟩ (by decide) (by decide)
    (by decide)

/-! ### Create then lookup, and allocation at the end of the table -/

set_option maxRecDepth 1000000 in
/-- C13 (create then lookup), evaluated on the fresh image with the path
"/a/b/c": the create-mode `resolve_path` returns `(3, 1)`, and the lookup-mode
`resolve_path` for the same path on the image it leaves fails. -/
theorem create_then_lookup_on_freshImage :
    (resolve_path_create freshImage 2 1 64 [47, 97, 47, 98, 47, 99] 1 exampleTime).map
        (fun r => (r.2, resolve_path r.1 2 1 64 [47, 97, 47, 98, 47, 99]))
      = some ((3, 1), none) := by
  decide

set_option maxRecDepth 1000000 in
/-- C19 (allocation fails at the end of the table), evaluated on the image
whose 16 FAT entries are all non-zero and whose file "f" in block 3 holds 64
zero bytes: `allocate_block` returns 32 and writes `FAT_EOF` over bytes 4-7 of
block 3, the file data. -/
theorem allocate_block_on_zeroFileImage :
    load_super_block zeroFileImage = some ⟨64, 4, 1, 1, 2, 1⟩ ∧
    (∀ i, i < 1 * 64 / 4 → fat_entry zeroFileImage 1 64 i ≠ some 0) ∧
    readAt zeroFileImage 192 8 = some [0, 0, 0, 0, 0, 0, 0, 0] ∧
    (allocate_block zeroFileImage 1 64).map (fun r => (r.1, readAt r.2 192 8))
      = some (32, some [0, 0, 0, 0, 255, 255, 255, 255]) := by
  decide

/-! ### `copy_file` reads the chain in order -/

theorem length_block_contents {img : Image} {bs b : Nat} (h : b * bs + bs ≤ img.length) :
    (block_contents img bs b).length = bs := by
  unfold block_contents
  simp only [List.length_take, List.length_drop]
  omega

/-- The loop of `copy_file` over a chain whose blocks lie inside the image. -/
theorem copy_file_loop_chain (img : Image) (fs bs : Nat) (hbs : 0 < bs) :
    ∀ (chain : List Nat) (fuelc cur fuel remaining : Nat) (out : List Nat),
      fat_chain img fs bs fuelc cur = some chain →
      (∀ b ∈ chain, b * bs + bs ≤ img.length) →
      remaining < fuel →
      copy_file_loop img fs bs fuel cur remaining out
        = some (out ++ ((chain.map (block_contents img bs)).flatten).take remaining) := by
  intro chain
  induction chain with
  | nil =>
    intro fuelc cur fuel remaining out h _ hf
    obtain ⟨fuel', rfl⟩ : ∃ f, fuel = f + 1 := ⟨fuel - 1, by omega⟩
    rw [copy_file_loop, if_pos (Or.inl (fat_chain_nil h))]
    simp
  | cons c rest ih =>
    intro fuelc cur fuel remaining out h hin hf
    obtain ⟨fuel', rfl⟩ : ∃ f, fuel = f + 1 := ⟨fuel - 1, by omega⟩
    obtain ⟨hbc, hc, next, g, he, hr⟩ := fat_chain_cons h
    subst hbc
    rw [copy_file_loop]
    by_cases hrem : remaining = 0
    · rw [if_pos (Or.inr hrem), hrem]
      simp
    · rw [if_neg (by simp [hc, hrem])]
      have hcin := hin cur (List.mem_cons_self _ _)
      have hbl := length_block_contents hcin
      simp only
      rw [read_link_of_fat_entry he]
      have hgot : ((img.drop (cur * bs)).take
          (if remaining < bs then remaining else bs)).length
            = if remaining < bs then remaining else bs := by
        simp only [List.length_take, List.length_drop]
        split <;> omega
      rw [hgot, Nat.sub_self, List.replicate_zero, List.append_nil,
        ih g next fuel' _ _ hr (fun b hb => hin b (List.mem_cons_of_mem _ hb))
          (by split <;> omega)]
      congr 1
      rw [List.map_cons, List.flatten_cons, List.take_append_eq_append_take, hbl,
        List.append_assoc]
      congr 1
      by_cases hlt : remaining < bs
      · simp only [hlt, if_true]
        rw [Nat.sub_self, show remaining - bs = 0 by omega]
        unfold block_contents
        rw [List.take_take, Nat.min_eq_left (by omega)]
      · simp only [hlt, if_false]
        unfold block_contents
        rw [List.take_take, Nat.min_eq_right (by omega)]

/-- C16: `copy_file` reads the chain in order up to the logical size.  For a
positive block size and an entry with starting block `f` and size `L` (a
32-bit value) whose FAT chain from `f` is `b0, ..., b(n-1)` and then the
terminator, all blocks inside the image, `copy_file` returns and its output
is the concatenation of the contents of `b0, b1, ...` in chain order cut to
`L` bytes; it has `min L (n*block_size)` bytes. -/
theorem copy_file_reads_chain (img : Image) (fat_start block_size : Nat)
    (entry : List Nat) (fuel : Nat) (chain : List Nat) (hbs : 0 < block_size)
    (hsize : entry_size entry < 4294967296)
    (hchain : fat_chain img fat_start block_size fuel (entry_starting_block entry)
      = some chain)
    (hin : ∀ b ∈ chain, b * block_size + block_size ≤ img.length) :
    ∃ out, copy_file img fat_start block_size entry = some out ∧
      out = ((chain.map (block_contents img block_size)).flatten).take (entry_size entry) ∧
      out.length = min (entry_size entry) (chain.length * block_size) := by
  refine ⟨_, ?_, rfl, ?_⟩
  · unfold copy_file
    rw [copy_file_loop_chain img fat_start block_size hbs chain fuel _ loopBound _ []
      hchain hin (by unfold loopBound; omega)]
    simp
  · rw [List.length_take]
    congr 1
    clear hchain
    induction chain with
    | nil => simp
    | cons c rest ih =>
      rw [List.map_cons, List.flatten_cons, List.length_append,
        length_block_contents (hin c (List.mem_cons_self _ _)),
        ih (fun b hb => hin b (List.mem_cons_of_mem _ hb)), List.length_cons]
      ring

set_option maxRecDepth 1000000 in
/-- Witness for C16: the file "g" of 100 bytes in the chain 6 -> 7. -/
theorem copy_file_reads_chain_witness :
    ∃ out, copy_file fileImage 1 64 fileEntry = some out ∧
      out = (([6, 7].map (block_contents fileImage 64)).flatten).take (entry_size fileEntry) ∧
      out.length = min (entry_size fileEntry) ([6, 7].length * 64) :=
  copy_file_reads_chain fileImage 1 64 fileEntry 16 [6, 7] (by decide) (by decide)
    (by decide) (by decide)

/-! ### `write_file` followed by `copy_file` -/

theorem block_disjoint {bs b c q : Nat} (hne : b ≠ c) (h1 : c * bs ≤ q) (h2 : q < c * bs + bs) :
    q < b * bs ∨ b * bs + bs ≤ q := by
  rcases Nat.lt_or_gt_of_ne hne with h | h
  · right
    have : (b + 1) * bs ≤ c * bs := Nat.mul_le_mul_right _ h
    rw [Nat.add_mul, Nat.one_mul] at this
    omega
  · left
    have : (c + 1) * bs ≤ b * bs := Nat.mul_le_mul_right _ h
    rw [Nat.add_mul, Nat.one_mul] at this
    omega

/-- A block outside the FAT region does not overlap a FAT entry inside it. -/
theorem fat_region_disjoint {fs bs fat_blocks c x : Nat}
    (hout : c < fs ∨ fs + fat_blocks ≤ c) (hx : 4 * x + 4 ≤ fat_blocks * bs) :
    fs * bs + 4 * x + 4 ≤ c * bs ∨ c * bs + bs ≤ fs * bs + 4 * x := by
  rcases hout with h | h
  · right
    have : (c + 1) * bs ≤ fs * bs := Nat.mul_le_mul_right _ h
    rw [Nat.add_mul, Nat.one_mul] at this
    omega
  · left
    have : (fs + fat_blocks) * bs ≤ c * bs := Nat.mul_le_mul_right _ h
    rw [Nat.add_mul] at this
    omega

theorem readAt_congr {img1 img : Image} {p n : Nat} (hlen : img1.length = img.length)
    (h : ∀ i, i < n → img1[p + i]? = img[p + i]?) : readAt img1 p n = readAt img p n := by
  unfold readAt
  rw [hlen, take_drop_congr h]

theorem block_contents_congr {img1 img : Image} {bs c : Nat}
    (h : ∀ q, c * bs ≤ q → q < c * bs + bs → img1[q]? = img[q]?) :
    block_contents img1 bs c = block_contents img bs c := by
  unfold block_contents
  exact take_drop_congr (fun i hi => h _ (by omega) (by omega))

/-- A chain stays a chain when the FAT entries of its blocks stay as they
are. -/
theorem fat_chain_congr {img1 img : Image} {fs bs : Nat} :
    ∀ (l : List Nat) {fuel b : Nat},
      (∀ c ∈ l, fat_entry img1 fs bs c = fat_entry img fs bs c) →
      fat_chain img fs bs fuel b = some l →
      ∃ fuel1, fat_chain img1 fs bs fuel1 b = some l := by
  intro l
  induction l with
  | nil =>
    intro fuel b _ h
    refine ⟨1, ?_⟩
    rw [fat_chain, if_pos (fat_chain_nil h)]
  | cons c rest ih =>
    intro fuel b hsame h
    obtain ⟨hbc, hc, next, g, he, hr⟩ := fat_chain_cons h
    subst hbc
    obtain ⟨g1, hg1⟩ := ih (fun c hc => hsame c (List.mem_cons_of_mem _ hc)) hr
    refine ⟨g1 + 1, fat_chain_of_cons hc ?_ hg1⟩
    rw [hsame b (List.mem_cons_self _ _), he]

theorem ceil_div_step {L bs : Nat} (hbs : 0 < bs) (hL : 0 < L) :
    (L + bs - 1) / bs = (L - (if L < bs then L else bs) + bs - 1) / bs + 1 := by
  by_cases h : L < bs
  · rw [if_pos h, Nat.sub_self, Nat.zero_add]
    rw [Nat.div_eq_of_lt (by omega : bs - 1 < bs)]
    have : (L + bs - 1) / bs = 1 := by
      apply Nat.div_eq_of_lt_le <;> omega
    omega
  · rw [if_neg h]
    have : L + bs - 1 = (L - bs + bs - 1) + bs := by omega
    rw [this, Nat.add_div_right _ hbs]

/-- The loop of `write_file` over a chain of blocks that lie inside the image
and outside the FAT region: it returns, the image keeps its length, only the
first `ceil(length/block_size)` blocks of the chain change, and the chain
holds the source bytes afterwards. -/
theorem write_file_loop_chain (fs bs fat_blocks : Nat) (hbs : 0 < bs) :
    ∀ (chain : List Nat) (fuelc cur fuel : Nat) (img : Image) (src : List Nat),
      fat_chain img fs bs fuelc cur = some chain →
      (∀ b ∈ chain, b * bs + bs ≤ img.length) →
      (∀ b ∈ chain, b < fs ∨ fs + fat_blocks ≤ b) →
      (∀ b ∈ chain, 4 * b + 4 ≤ fat_blocks * bs) →
      src.length ≤ chain.length * bs → src.length < fuel →
      ∃ img1, write_file_loop fs bs fuel img src cur src.length = some img1 ∧
        img1.length = img.length ∧
        (∀ q, (∀ b ∈ chain.take ((src.length + bs - 1) / bs), q < b * bs ∨ b * bs + bs ≤ q) →
          img1[q]? = img[q]?) ∧
        ((chain.map (block_contents img1 bs)).flatten).take src.length = src := by
  intro chain
  induction chain with
  | nil =>
    intro fuelc cur fuel img src h _ _ _ hL hf
    obtain ⟨fuel', rfl⟩ : ∃ f, fuel = f + 1 := ⟨fuel - 1, by omega⟩
    have hsrc : src = [] := List.length_eq_zero.1 (by simpa using hL)
    subst hsrc
    refine ⟨img, ?_, rfl, fun _ _ => rfl, by simp⟩
    rw [write_file_loop, if_pos (Or.inl (fat_chain_nil h))]
  | cons c rest ih =>
    intro fuelc cur fuel img src h hin hout hfat hL hf
    obtain ⟨fuel', rfl⟩ : ∃ f, fuel = f + 1 := ⟨fuel - 1, by omega⟩
    obtain ⟨hbc, hc, next, g, he, hr⟩ := fat_chain_cons h
    subst hbc
    by_cases hsrc : src.length = 0
    · refine ⟨img, ?_, rfl, fun _ _ => rfl, ?_⟩
      · rw [write_file_loop, if_pos (Or.inr hsrc)]
      · rw [hsrc, List.take_zero]
        exact (List.length_eq_zero.1 hsrc).symm
    · -- one round of the loop
      have hcin := hin cur (List.mem_cons_self _ _)
      have hnd := fat_chain_nodup _ h
      have hcnot : cur ∉ rest := (List.nodup_cons.1 hnd).1
      generalize ht : (if src.length < bs then src.length else bs) = t
      have ht1 : 0 < t := by rw [← ht]; split <;> omega
      have ht2 : t ≤ bs := by rw [← ht]; split <;> omega
      have ht3 : t ≤ src.length := by rw [← ht]; split <;> omega
      have hslice : (src.take t).length = t := by simp; omega
      have hlen1 : (writeAt img (cur * bs) (src.take t)).length = img.length :=
        length_writeAt_of_le _ _ _ (by rw [hslice]; omega)
      have hread1 : readAt (writeAt img (cur * bs) (src.take t)) (cur * bs) t
          = some (src.take t) := by
        have := readAt_writeAt_same img (cur * bs) (src.take t) (by omega)
        rwa [hslice] at this
      have hfat1 : ∀ b ∈ cur :: rest,
          fat_entry (writeAt img (cur * bs) (src.take t)) fs bs b = fat_entry img fs bs b := by
        intro b hb
        obtain ⟨v, hv⟩ := fat_chain_mem_lt _ h b hb
        obtain ⟨w, hw, _⟩ := fat_entry_eq_some_iff.1 hv
        have hbl := readAt_some_le hw
        unfold fat_entry
        rw [readAt_writeAt_of_disjoint _ _ _ _ _ _ hbl]
        rw [hslice]
        rcases fat_region_disjoint (hout cur (List.mem_cons_self _ _)) (hfat b hb) with h1 | h1
        · left; omega
        · right; omega
      have hframe1 : ∀ q, (q < cur * bs ∨ cur * bs + bs ≤ q) →
          (writeAt img (cur * bs) (src.take t))[q]? = img[q]? := by
        intro q hq
        by_cases hql : q < img.length
        · exact getElem?_writeAt_of_disjoint _ _ _ _ (by rw [hslice]; omega) hql
        · rw [List.getElem?_eq_none (by omega), List.getElem?_eq_none (by omega)]
      obtain ⟨img2, himg2⟩ : ∃ x, x = writeAt img (cur * bs) (src.take t) := ⟨_, rfl⟩
      rw [← himg2] at hlen1 hread1 hfat1 hframe1
      obtain ⟨g2, hg2⟩ := fat_chain_congr rest
        (fun b hb => hfat1 b (List.mem_cons_of_mem _ hb)) hr
      have hsl : (src.drop t).length = src.length - t := by simp
      obtain ⟨img1, hrun, hlen, hframe, hcontent⟩ := ih g2 next fuel' img2 (src.drop t) hg2
        (fun b hb => by rw [hlen1]; exact hin b (List.mem_cons_of_mem _ hb))
        (fun b hb => hout b (List.mem_cons_of_mem _ hb))
        (fun b hb => hfat b (List.mem_cons_of_mem _ hb))
        (by
          rw [hsl]
          simp only [List.length_cons, Nat.add_mul, Nat.one_mul] at hL
          rw [← ht]; split <;> omega)
        (by rw [hsl]; omega)
      rw [hsl] at hrun hframe hcontent
      have hceil : (src.length + bs - 1) / bs = (src.length - t + bs - 1) / bs + 1 := by
        rw [← ht]; exact ceil_div_step hbs (by omega)
      refine ⟨img1, ?_, by rw [hlen, hlen1], ?_, ?_⟩
      · rw [write_file_loop, if_neg (by simp [hc, hsrc])]
        simp only [ht]
        rw [← himg2, read_link_of_fat_entry
          ((hfat1 cur (List.mem_cons_self _ _)).trans he)]
        exact hrun
      · intro q hq
        rw [hceil, List.take_succ_cons] at hq
        rw [hframe q (fun b hb => hq b (List.mem_cons_of_mem _ hb))]
        exact hframe1 q (hq cur (List.mem_cons_self _ _))
      · have hblock : block_contents img1 bs cur = block_contents img2 bs cur := by
          apply block_contents_congr
          intro q h1 h2
          apply hframe
          intro b hb
          have hbr : b ∈ rest := List.mem_of_mem_take hb
          exact block_disjoint (fun hbc : b = cur => hcnot (by rw [← hbc]; exact hbr)) h1 h2
        have hbl : (block_contents img1 bs cur).length = bs :=
          length_block_contents (by rw [hlen, hlen1]; exact hcin)
        have hfirst : (block_contents img1 bs cur).take src.length = src.take t := by
          rw [hblock]
          unfold block_contents
          rw [List.take_take]
          have hmin : min src.length bs = t := by rw [← ht]; split <;> omega
          rw [hmin]
          obtain ⟨_, hw⟩ := readAt_eq_some_iff.1 hread1
          exact hw.symm
        have hrest : ((rest.map (block_contents img1 bs)).flatten).take (src.length - bs)
            = src.drop t := by
          by_cases hlt : src.length < bs
          · have htl : t = src.length := by rw [← ht, if_pos hlt]
            rw [show src.length - bs = 0 by omega, List.take_zero, htl, List.drop_length]
          · have htl : t = bs := by rw [← ht, if_neg hlt]
            rw [show src.length - bs = src.length - t by omega]
            exact hcontent
        rw [List.map_cons, List.flatten_cons, List.take_append_eq_append_take, hbl, hfirst,
          hrest, List.take_append_drop]

/-- C15: block-chain write/read round trip.  Take a positive block size and a
FAT chain from block `f` that reaches the terminator, whose blocks (pairwise
distinct, as the blocks of every chain that ends) lie inside the image and
outside the FAT region (`fat_blocks` blocks from `fat_start`) while their FAT
entries lie inside it.  For data of length `L ≤ n*block_size`, `L` a 32-bit
value, `write_file` from `f` returns; `copy_file` on an entry with starting
block `f` and size `L` then outputs exactly the data; and `write_file` keeps
the length of the image and changes no byte outside the first
`ceil(L/block_size)` blocks of the chain. -/
theorem write_file_then_copy_file (img : Image) (fat_start block_size fat_blocks f : Nat)
    (data entry : List Nat) (fuel : Nat) (chain : List Nat) (hbs : 0 < block_size)
    (hchain : fat_chain img fat_start block_size fuel f = some chain)
    (hin : ∀ b ∈ chain, b * block_size + block_size ≤ img.length)
    (hout : ∀ b ∈ chain, b < fat_start ∨ fat_start + fat_blocks ≤ b)
    (hfat : ∀ b ∈ chain, 4 * b + 4 ≤ fat_blocks * block_size)
    (hL : data.length ≤ chain.length * block_size) (hL32 : data.length < 4294967296)
    (hstart : entry_starting_block entry = f) (hsize : entry_size entry = data.length) :
    ∃ img1, write_file img data block_size f data.length fat_start = some img1 ∧
      copy_file img1 fat_start block_size entry = some data ∧
      img1.length = img.length ∧
      ∀ q, (∀ b ∈ chain.take ((data.length + block_size - 1) / block_size),
          q < b * block_size ∨ b * block_size + block_size ≤ q) →
        img1[q]? = img[q]? := by
  obtain ⟨img1, hrun, hlen, hframe, hcontent⟩ :=
    write_file_loop_chain fat_start block_size fat_blocks hbs chain fuel f
      (data.length + loopBound) img data hchain hin hout hfat hL (by unfold loopBound; omega)
  refine ⟨img1, hrun, ?_, hlen, hframe⟩
  have hsame : ∀ c ∈ chain, fat_entry img1 fat_start block_size c
      = fat_entry img fat_start block_size c := by
    intro c hc
    unfold fat_entry
    rw [readAt_congr hlen]
    intro i hi
    apply hframe
    intro b hb
    rcases fat_region_disjoint (hout b (List.mem_of_mem_take hb)) (hfat c hc) with h | h
    · left; omega
    · right; omega
  obtain ⟨g, hg⟩ := fat_chain_congr chain hsame hchain
  unfold copy_file
  rw [hstart, hsize, copy_file_loop_chain img1 fat_start block_size hbs chain g f loopBound
    data.length [] hg (fun b hb => by rw [hlen]; exact hin b hb)
    (by unfold loopBound; omega), hcontent]
  rfl

set_option maxRecDepth 1000000 in
/-- Witness for C15: 100 bytes written to the chain 6 -> 7 of `fileImage` and
read back through the entry of the file "g". -/
theorem write_file_then_copy_file_witness :
    ∃ img1, write_file fileImage (List.replicate 100 9) 64 6
        (List.replicate 100 9).length 1 = some img1 ∧
      copy_file img1 1 64 fileEntry = some (List.replicate 100 9) ∧
      img1.length = fileImage.length ∧
      ∀ q, (∀ b ∈ [6, 7].take (((List.replicate 100 9).length + 64 - 1) / 64),
          q < b * 64 ∨ b * 64 + 64 ≤ q) →
        img1[q]? = fileImage[q]? :=
  write_file_then_copy_file fileImage 1 64 1 6 (List.replicate 100 9) fileEntry 16 [6, 7]
    (by decide) (by decide) (by decide) (by decide) (by decide) (by decide) (by decide)
    (by decide) (by decide)

/-! ### `diskget` on a missing path -/

/-- C21: get on a missing path creates nothing.  For an image that holds a
superblock and a path whose directory part the lookup-mode `resolve_path` does
not find, or in whose directory `find_file` returns 0, `main` of diskget.c ends
with the message "not found" and `exit(1)`: `copy_file`, which opens the
output file, is not reached. -/
theorem diskget_not_found (img : Image) (path : List Nat) (sb : SuperBlock)
    (hsb : load_super_block img = some sb)
    (hmiss :
      resolve_path img sb.root_start sb.root_blocks sb.block_size (split_path path).1 = none ∨
      ∃ d, resolve_path img sb.root_start sb.root_blocks sb.block_size (split_path path).1
          = some d ∧
        find_file img d.1 sb.fat_start sb.block_size (split_path path).2 = some none) :
    diskget img path = some GetResult.not_found := by
  unfold diskget
  rw [hsb]
  rcases hmiss with h | ⟨d, h1, h2⟩
  · simp only [h]
  · obtain ⟨d1, d2⟩ := d
    simp only [h1, h2]

set_option maxRecDepth 1000000 in
/-- Witness for C21: the file "g" does not exist in the root directory of
`fullImage`. -/
theorem diskget_not_found_witness : diskget fullImage [103] = some GetResult.not_found :=
  diskget_not_found fullImage [103] ⟨64, 4, 1, 1, 2, 1⟩ (by decide)
    (Or.inr ⟨(2, 1), by decide, by decide⟩)

/-! ### `allocate_fat` for an empty file -/

/-- C27: zero-length allocation still writes the FAT.  For a positive block
size and an image that holds FAT entry 0, `allocate_fat` with file size 0 needs
0 blocks, so that its loop ends at once without a call of `allocate_block`; it
returns first block 0, FAT entry 0 reads `FAT_EOF` afterwards, the image keeps
its length and every byte outside the four bytes of FAT entry 0 is
unchanged. -/
theorem allocate_fat_zero_length (img : Image) (fat_start block_size : Nat)
    (hbs : 0 < block_size) (hin : fat_start * block_size + 4 ≤ img.length) :
    (0 + block_size - 1) / block_size % U32 = 0 ∧
    allocate_fat_loop fat_start block_size 0 img 0 0 = some (Sum.inr (img, 0, 0)) ∧
    ∃ img1, allocate_fat img fat_start block_size 0 = some (0, img1) ∧
      fat_entry img1 fat_start block_size 0 = some FAT_EOF ∧
      img1.length = img.length ∧
      ∀ q, (q < fat_start * block_size ∨ fat_start * block_size + 4 ≤ q) →
        img1[q]? = img[q]? := by
  have hzero : (0 + block_size - 1) / block_size % U32 = 0 := by
    rw [Nat.zero_add, Nat.div_eq_of_lt (by omega)]
    rfl
  have hl4 : (htonl FAT_EOF).length = 4 := rfl
  have hlen : (writeAt img (fat_start * block_size + 0 * 4) (htonl FAT_EOF)).length
      = img.length := length_writeAt_of_le _ _ _ (by rw [hl4]; omega)
  refine ⟨hzero, rfl, writeAt img (fat_start * block_size + 0 * 4) (htonl FAT_EOF),
    ?_, ?_, hlen, ?_⟩
  · unfold allocate_fat
    rw [if_neg (by omega)]
    simp only [hzero, allocate_fat_loop]
  · unfold fat_entry
    have := readAt_writeAt_same img (fat_start * block_size + 0 * 4) (htonl FAT_EOF)
      (by rw [hl4]; decide)
    rw [hl4] at this
    rw [show fat_start * block_size + 4 * 0 = fat_start * block_size + 0 * 4 by omega, this]
    rfl
  · intro q hq
    by_cases hql : q < img.length
    · exact getElem?_writeAt_of_disjoint _ _ _ _ (by rw [hl4]; omega) hql
    · rw [List.getElem?_eq_none (by omega), List.getElem?_eq_none (by omega)]

set_option maxRecDepth 1000000 in
/-- Witness for C27 on the fresh image. -/
theorem allocate_fat_zero_length_witness :
    (0 + 64 - 1) / 64 % U32 = 0 ∧
    allocate_fat_loop 1 64 0 freshImage 0 0 = some (Sum.inr (freshImage, 0, 0)) ∧
    ∃ img1, allocate_fat freshImage 1 64 0 = some (0, img1) ∧
      fat_entry img1 1 64 0 = some FAT_EOF ∧
      img1.length = freshImage.length ∧
      ∀ q, (q < 1 * 64 ∨ 1 * 64 + 4 ≤ q) → img1[q]? = freshImage[q]? :=
  allocate_fat_zero_length freshImage 1 64 (by decide) (by decide)

/-! ### `write_entry` when no block is free -/

set_option maxRecDepth 1000000 in
/-- C23 as stated fails on `fullImage`: the root directory (chain of the one
block 2) has no free slot and `allocate_block` finds no free block; yet
`write_entry` returns 0 with the image as it was, so that the FAT link of the
tail block 2 has not been written (it still reads `FAT_EOF`). -/
theorem write_entry_exhausted_on_fullImage :
    fat_chain fullImage 1 64 16 2 = some [2] ∧
    slot_free fullImage 64 2 0 = false ∧
    allocate_block fullImage 1 64 = some (0, fullImage) ∧
    write_entry fullImage 2 64 1 (make_entry 4 7 1 0 [99] exampleTime)
      = some (0, fullImage) ∧
    fat_entry fullImage 1 64 2 = some FAT_EOF := by
  decide

/-- C23, amended: `write_entry` is atomic on allocation exhaustion.  For an
image of less than `2^32` bytes and a directory whose FAT chain reaches the
terminator and has no free slot, when `allocate_block` finds no free block
(it returns 0 and leaves the image as it is), `write_entry` returns 0 and the
image is unchanged: no FAT link is written and the entry is not stored. -/
theorem write_entry_atomic_on_exhaustion (img : Image)
    (fat_start block_size dir_start : Nat) (entry : List Nat) (fuel : Nat)
    (chain : List Nat) (hlen : img.length < 4294967296)
    (hchain : fat_chain img fat_start block_size fuel dir_start = some chain)
    (hfull : ∀ c ∈ chain, ∀ j, j < block_size / 64 → slot_free img block_size c j = false)
    (halloc : allocate_block img fat_start block_size = some (0, img)) :
    write_entry img dir_start block_size fat_start entry = some (0, img) := by
  have hcl := fat_chain_length_le hchain
  have hwalk := write_entry_walk_full img fat_start block_size entry chain fuel
    dir_start loopBound dir_start hchain hfull (by unfold loopBound; omega)
  unfold write_entry
  rw [hwalk]
  simp only [halloc, if_true]

set_option maxRecDepth 1000000 in
/-- Witness for the amended C23 on `fullImage`. -/
theorem write_entry_atomic_on_exhaustion_witness :
    write_entry fullImage 2 64 1 (make_entry 4 7 1 0 [99] exampleTime)
      = some (0, fullImage) :=
  write_entry_atomic_on_exhaustion fullImage 1 64 2 (make_entry 4 7 1 0 [99] exampleTime)
    16 [2] (by decide) (by decide) (by decide) (by decide)

/-! ### Where `allocate_block` writes the terminator -/

set_option maxRecDepth 1000000 in
/-- C24 as stated fails on the fresh image: `allocate_block` returns `k = 3`,
the FAT entry at index `k + 1 = 4` still reads 0 afterwards, and the entry that
was overwritten with `FAT_EOF` is entry 1. -/
theorem allocate_block_terminator_on_freshImage :
    fat_entry freshImage 1 64 1 = some 1 ∧
    (allocate_block freshImage 1 64).map
        (fun r => (r.1, fat_entry r.2 1 64 (r.1 + 1), fat_entry r.2 1 64 1))
      = some (3, some 0, some FAT_EOF) := by
  decide

/-- C24, amended: the terminator goes to entry 1 of the FAT block in which the
free entry was found.  For an image of less than `2^32` bytes with a block size
that is a positive multiple of 4 and in which some FAT entry reads 0,
`allocate_block` returns the least such index `k`, and the image it leaves is
the old one with `FAT_EOF` written over the FAT entry at index
`(k / n) * n + 1`, where `n = block_size / 4` is the number of entries of a
block; this is index `k + 1` when `k` is the first entry of its block.  That
entry reads `FAT_EOF` afterwards and no other byte of the old image
changes. -/
theorem allocate_block_terminator_location (img : Image) (fat_start block_size : Nat)
    (h4 : 4 ∣ block_size) (hpos : 0 < block_size) (hlen : img.length < 4294967296)
    (hfree : ∃ i, fat_entry img fat_start block_size i = some 0) :
    ∃ k img1, allocate_block img fat_start block_size = some (k, img1) ∧
      fat_entry img fat_start block_size k = some 0 ∧
      (∀ j, j < k → fat_entry img fat_start block_size j ≠ some 0) ∧
      img1 = writeAt img
        (fat_start * block_size + 4 * (k / (block_size / 4) * (block_size / 4) + 1))
        (htonl FAT_EOF) ∧
      fat_entry img1 fat_start block_size (k / (block_size / 4) * (block_size / 4) + 1)
        = some FAT_EOF ∧
      (k % (block_size / 4) = 0 → k / (block_size / 4) * (block_size / 4) + 1 = k + 1) ∧
      ∀ q, q < img.length →
        (q < fat_start * block_size + 4 * (k / (block_size / 4) * (block_size / 4) + 1) ∨
          fat_start * block_size + 4 * (k / (block_size / 4) * (block_size / 4) + 1) + 4 ≤ q) →
        img1[q]? = img[q]? := by
  classical
  obtain ⟨be, rfl⟩ := h4
  have hbe : 0 < be := by omega
  have hk := Nat.find_spec hfree
  have hmin : ∀ j, j < Nat.find hfree → fat_entry img fat_start (4 * be) j ≠ some 0 :=
    fun j hj => Nat.find_min hfree hj
  have hkoff : fat_start * (4 * be) + 4 * Nat.find hfree + 4 ≤ img.length := by
    obtain ⟨w, hw, _⟩ := fat_entry_eq_some_iff.1 hk
    exact readAt_some_le hw
  have hdiv : Nat.find hfree / be ≤ Nat.find hfree := Nat.div_le_self _ _
  have hres := allocate_block_loop_first_free img fat_start be (Nat.find hfree) hbe hlen hk
    hmin (Nat.find hfree / be) 0 loopBound (by omega) (by unfold loopBound; omega)
  have hbediv : 4 * be / 4 = be := Nat.mul_div_cancel_left be (by decide)
  have hoff : fat_start * (4 * be) + Nat.find hfree / be * (4 * be) + 4
      = fat_start * (4 * be) + 4 * (Nat.find hfree / be * be + 1) := by ring
  have hl4 : (htonl FAT_EOF).length = 4 := rfl
  rw [hbediv]
  rw [hoff] at hres
  refine ⟨Nat.find hfree, _, hres, hk, hmin, rfl, ?_, ?_, ?_⟩
  · unfold fat_entry
    have := readAt_writeAt_same img
      (fat_start * (4 * be) + 4 * (Nat.find hfree / be * be + 1)) (htonl FAT_EOF)
      (by rw [hl4]; decide)
    rw [hl4] at this
    rw [this]
    rfl
  · intro hmod
    have := Nat.div_add_mod' (Nat.find hfree) be
    omega
  · intro q hq hdis
    exact getElem?_writeAt_of_disjoint _ _ _ _ (by rw [hl4]; exact hdis) hq

set_option maxRecDepth 1000000 in
/-- Witness for the amended C24 on the fresh image: the free entry found is
entry 3 and the terminator goes to entry 1. -/
theorem allocate_block_terminator_location_witness :
    ∃ k img1, allocate_block freshImage 1 64 = some (k, img1) ∧
      fat_entry freshImage 1 64 k = some 0 ∧
      (∀ j, j < k → fat_entry freshImage 1 64 j ≠ some 0) ∧
      img1 = writeAt freshImage (1 * 64 + 4 * (k / (64 / 4) * (64 / 4) + 1))
        (htonl FAT_EOF) ∧
      fat_entry img1 1 64 (k / (64 / 4) * (64 / 4) + 1) = some FAT_EOF ∧
      (k % (64 / 4) = 0 → k / (64 / 4) * (64 / 4) + 1 = k + 1) ∧
      ∀ q, q < freshImage.length →
        (q < 1 * 64 + 4 * (k / (64 / 4) * (64 / 4) + 1) ∨
          1 * 64 + 4 * (k / (64 / 4) * (64 / 4) + 1) + 4 ≤ q) →
        img1[q]? = freshImage[q]? :=
  allocate_block_terminator_location freshImage 1 64 (by decide) (by decide) (by decide)
    ⟨3, by decide⟩

/-! ### The two meanings of the result 0 -/

set_option maxRecDepth 1000000 in
/-- C25: index 0 is an ambiguous result.  There are two images on which
`allocate_block` returns 0: on the first, FAT entry 0 reads 0, block 0 is the
block found and the FAT is modified; on the second, no entry from the start of
the FAT to the end of the file reads 0 and nothing is modified.  On the first
image `write_entry` on the full root directory returns 0 and `allocate_fat`
leaves its loop through `return 0`, as they do when no block is free. -/
theorem allocate_block_zero_ambiguous :
    ∃ img1 img2 : Image,
      fat_entry img1 1 64 0 = some 0 ∧
      (allocate_block img1 1 64).map Prod.fst = some 0 ∧
      (allocate_block img1 1 64).map Prod.snd = some (writeAt img1 68 (htonl FAT_EOF)) ∧
      writeAt img1 68 (htonl FAT_EOF) ≠ img1 ∧
      (∀ i, i < 48 → fat_entry img2 1 64 i ≠ some 0) ∧ fat_entry img2 1 64 48 = none ∧
      allocate_block img2 1 64 = some (0, img2) ∧
      write_entry img1 2 64 1 (make_entry 4 7 1 0 [99] exampleTime)
        = some (0, writeAt img1 68 (htonl FAT_EOF)) ∧
      allocate_fat_loop 1 64 1 img1 0 0 = some (Sum.inl (writeAt img1 68 (htonl FAT_EOF))) ∧
      allocate_fat img1 1 64 64 = some (0, writeAt img1 68 (htonl FAT_EOF)) :=
  ⟨zeroFirstImage, fullImage, by decide⟩

/-! ### `find_subdir` matches directories only -/

theorem subdir_match_eq_true_iff (e target : List Nat) :
    subdir_match e target = true ↔
      entry_status e &&& 4 ≠ 0 ∧ cstr (trimmed_name_buf (entry_name e)) = target := by
  simp [subdir_match]

theorem readAt_none_of_le {img : Image} {p q n : Nat} (h : readAt img p n = none)
    (hpq : p ≤ q) : readAt img q n = none := by
  rw [readAt_eq_none_iff] at h ⊢
  omega

/-- The loop of `find_subdir` returns the fields of the first slot, in scan
order, that is occupied, has the directory bit and holds the target as its
trimmed name. -/
theorem find_subdir_loop_eq_some_iff (img : Image) (off : Nat) (target : List Nat) :
    ∀ n i r, find_subdir_loop img off target i n = some r ↔
      ∃ j, i ≤ j ∧ j < i + n ∧ ∃ e, readAt img (off + 64 * j) 64 = some e ∧
        (entry_status e ≠ 0 ∧ entry_status e &&& 4 ≠ 0 ∧
          cstr (trimmed_name_buf (entry_name e)) = target) ∧
        (∀ j1, i ≤ j1 → j1 < j → ∀ e1, readAt img (off + 64 * j1) 64 = some e1 →
          ¬ (entry_status e1 ≠ 0 ∧ entry_status e1 &&& 4 ≠ 0 ∧
            cstr (trimmed_name_buf (entry_name e1)) = target)) ∧
        r = (entry_starting_block e, entry_block_count e) := by
  intro n
  induction n with
  | zero =>
    intro i r
    simp only [find_subdir_loop]
    constructor
    · intro h; cases h
    · rintro ⟨j, h1, h2, _⟩; omega
  | succ n ih =>
    intro i r
    rw [find_subdir_loop]
    unfold DIR_ENTRY_SIZE
    cases hr : readAt img (off + 64 * i) 64 with
    | none =>
      simp only
      constructor
      · intro h; cases h
      · rintro ⟨j, h1, _, e, he, _⟩
        rw [readAt_none_of_le hr (by omega)] at he
        cases he
    | some e0 =>
      simp only
      -- the step to the next slot, when slot `i` is no match
      have hstep : ¬ (entry_status e0 ≠ 0 ∧ entry_status e0 &&& 4 ≠ 0 ∧
            cstr (trimmed_name_buf (entry_name e0)) = target) →
          (find_subdir_loop img off target (i + 1) n = some r ↔
            ∃ j, i ≤ j ∧ j < i + (n + 1) ∧ ∃ e, readAt img (off + 64 * j) 64 = some e ∧
              (entry_status e ≠ 0 ∧ entry_status e &&& 4 ≠ 0 ∧
                cstr (trimmed_name_buf (entry_name e)) = target) ∧
              (∀ j1, i ≤ j1 → j1 < j → ∀ e1, readAt img (off + 64 * j1) 64 = some e1 →
                ¬ (entry_status e1 ≠ 0 ∧ entry_status e1 &&& 4 ≠ 0 ∧
                  cstr (trimmed_name_buf (entry_name e1)) = target)) ∧
              r = (entry_starting_block e, entry_block_count e)) := by
        intro hno
        rw [ih (i + 1) r]
        constructor
        · rintro ⟨j, h1, h2, e, he, hm, hfirst, hres⟩
          refine ⟨j, by omega, by omega, e, he, hm, ?_, hres⟩
          intro j1 h3 h4 e1 he1
          by_cases hj1 : j1 = i
          · subst hj1
            rw [hr] at he1
            injection he1 with he1
            subst he1
            exact hno
          · exact hfirst j1 (by omega) h4 e1 he1
        · rintro ⟨j, h1, h2, e, he, hm, hfirst, hres⟩
          have hji : j ≠ i := by
            intro hji
            subst hji
            rw [hr] at he
            injection he with he
            subst he
            exact hno hm
          exact ⟨j, by omega, by omega, e, he, hm,
            fun j1 h3 h4 e1 he1 => hfirst j1 (by omega) h4 e1 he1, hres⟩
      by_cases hst : entry_status e0 = 0
      · rw [if_pos hst]
        exact hstep (fun h => h.1 hst)
      · rw [if_neg hst]
        by_cases hm : subdir_match e0 target = true
        · rw [if_pos hm]
          have hm2 := (subdir_match_eq_true_iff e0 target).1 hm
          constructor
          · intro h
            injection h with h
            exact ⟨i, le_refl _, by omega, e0, hr, ⟨hst, hm2.1, hm2.2⟩,
              fun j1 h3 h4 => by omega, h.symm⟩
          · rintro ⟨j, h1, h2, e, he, hme, hfirst, hres⟩
            by_cases hji : j = i
            · subst hji
              rw [hr] at he
              injection he with he
              subst he
              rw [hres]
            · exact absurd ⟨hst, hm2.1, hm2.2⟩ (hfirst i (le_refl _) (by omega) e0 hr)
        · rw [if_neg hm]
          exact hstep (fun h => hm ((subdir_match_eq_true_iff e0 target).2 ⟨h.2.1, h.2.2⟩))

/-- C22: `find_subdir` matches directories only.  Among the
`block_count*block_size/64` slots that `find_subdir` scans from the start of
the directory, call a slot a match when it is inside the image, its status is
not 0, bit 2 (0x04) of the status is set and its trimmed name is the target.
Then `find_subdir` returns found exactly when some scanned slot is a match,
and what it returns are the big-endian `starting_block` and `block_count` of
the first match in scan order; the entry returned always has the directory
bit, so that an occupied entry without it is never returned. -/
theorem find_subdir_matches_directories_only (img : Image)
    (start_block block_count block_size : Nat) (target : List Nat) :
    ((∃ r, find_subdir img start_block block_count block_size target = some r) ↔
      ∃ j, j < block_count * (block_size % 65536) / 64 ∧
        ∃ e, readAt img (start_block * (block_size % 65536) + 64 * j) 64 = some e ∧
          entry_status e ≠ 0 ∧ entry_status e &&& 4 ≠ 0 ∧
          cstr (trimmed_name_buf (entry_name e)) = target) ∧
    ∀ r, find_subdir img start_block block_count block_size target = some r ↔
      ∃ j, j < block_count * (block_size % 65536) / 64 ∧
        ∃ e, readAt img (start_block * (block_size % 65536) + 64 * j) 64 = some e ∧
          (entry_status e ≠ 0 ∧ entry_status e &&& 4 ≠ 0 ∧
            cstr (trimmed_name_buf (entry_name e)) = target) ∧
          (∀ j1, j1 < j → ∀ e1,
            readAt img (start_block * (block_size % 65536) + 64 * j1) 64 = some e1 →
            ¬ (entry_status e1 ≠ 0 ∧ entry_status e1 &&& 4 ≠ 0 ∧
              cstr (trimmed_name_buf (entry_name e1)) = target)) ∧
          r = (entry_starting_block e, entry_block_count e) := by
  classical
  have hspec : ∀ r, find_subdir img start_block block_count block_size target = some r ↔
      ∃ j, j < block_count * (block_size % 65536) / 64 ∧
        ∃ e, readAt img (start_block * (block_size % 65536) + 64 * j) 64 = some e ∧
          (entry_status e ≠ 0 ∧ entry_status e &&& 4 ≠ 0 ∧
            cstr (trimmed_name_buf (entry_name e)) = target) ∧
          (∀ j1, j1 < j → ∀ e1,
            readAt img (start_block * (block_size % 65536) + 64 * j1) 64 = some e1 →
            ¬ (entry_status e1 ≠ 0 ∧ entry_status e1 &&& 4 ≠ 0 ∧
              cstr (trimmed_name_buf (entry_name e1)) = target)) ∧
          r = (entry_starting_block e, entry_block_count e) := by
    intro r
    unfold find_subdir DIR_ENTRY_SIZE
    rw [find_subdir_loop_eq_some_iff]
    constructor
    · rintro ⟨j, _, h2, e, he, hm, hfirst, hres⟩
      exact ⟨j, by omega, e, he, hm, fun j1 h => hfirst j1 (Nat.zero_le _) h, hres⟩
    · rintro ⟨j, h2, e, he, hm, hfirst, hres⟩
      exact ⟨j, Nat.zero_le _, by omega, e, he, hm, fun j1 _ h => hfirst j1 h, hres⟩
  refine ⟨?_, hspec⟩
  constructor
  · rintro ⟨r, hr⟩
    obtain ⟨j, h1, e, he, hm, _, _⟩ := (hspec r).1 hr
    exact ⟨j, h1, e, he, hm⟩
  · intro hex
    have hj := Nat.find_spec hex
    obtain ⟨hlt, e, he, hm⟩ := hj
    refine ⟨(entry_starting_block e, entry_block_count e), (hspec _).2
      ⟨Nat.find hex, hlt, e, he, hm, ?_, rfl⟩⟩
    intro j1 hj1 e1 he1 hm1
    exact Nat.find_min hex hj1 ⟨by omega, e1, he1, hm1⟩

/-! ### Which loops end on a corrupt chain -/

/-- With a positive block size the loop of `copy_file` ends within
`ceil(remaining/block_size)` rounds, whatever the FAT holds. -/
theorem copy_file_loop_returns (img : Image) (fs bs : Nat) (hbs : 0 < bs) :
    ∀ fuel cur remaining out, (remaining + bs - 1) / bs < fuel →
      ∃ r, copy_file_loop img fs bs fuel cur remaining out = some r := by
  intro fuel
  induction fuel with
  | zero => intro _ _ _ h; exact absurd h (Nat.not_lt_zero _)
  | succ fuel ih =>
    intro cur remaining out h
    rw [copy_file_loop]
    by_cases hstop : cur = FAT_EOF ∨ remaining = 0
    · rw [if_pos hstop]; exact ⟨_, rfl⟩
    · rw [if_neg hstop]
      have hrem : 0 < remaining := by
        rcases Nat.eq_zero_or_pos remaining with h0 | h0
        · exact absurd (Or.inr h0) hstop
        · exact h0
      apply ih
      have := ceil_div_step hbs hrem
      omega

/-- With a positive block size the loop of `write_file` ends within
`ceil(remaining/block_size)` rounds, whatever the FAT holds. -/
theorem write_file_loop_returns (fs bs : Nat) (hbs : 0 < bs) :
    ∀ fuel (img : Image) (src : List Nat) cur remaining, (remaining + bs - 1) / bs < fuel →
      ∃ r, write_file_loop fs bs fuel img src cur remaining = some r := by
  intro fuel
  induction fuel with
  | zero => intro _ _ _ _ h; exact absurd h (Nat.not_lt_zero _)
  | succ fuel ih =>
    intro img src cur remaining h
    rw [write_file_loop]
    by_cases hstop : cur = FAT_EOF ∨ remaining = 0
    · rw [if_pos hstop]; exact ⟨_, rfl⟩
    · rw [if_neg hstop]
      have hrem : 0 < remaining := by
        rcases Nat.eq_zero_or_pos remaining with h0 | h0
        · exact absurd (Or.inr h0) hstop
        · exact h0
      apply ih
      have := ceil_div_step hbs hrem
      omega

/-- The walk of `find_file` ends on a chain that reaches the terminator. -/
theorem find_file_loop_returns (img : Image) (fs bs : Nat) (filename : List Nat) :
    ∀ (chain : List Nat) (fuelc cur fuel : Nat),
      fat_chain img fs bs fuelc cur = some chain → chain.length < fuel →
      ∃ r, find_file_loop img fs bs filename fuel cur = some r := by
  intro chain
  induction chain with
  | nil =>
    intro fuelc cur fuel h hf
    obtain ⟨fuel', rfl⟩ : ∃ f, fuel = f + 1 := ⟨fuel - 1, by simp at hf; omega⟩
    exact ⟨none, by rw [find_file_loop, if_pos (fat_chain_nil h)]⟩
  | cons c rest ih =>
    intro fuelc cur fuel h hf
    obtain ⟨fuel', rfl⟩ : ∃ f, fuel = f + 1 := ⟨fuel - 1, by simp at hf; omega⟩
    obtain ⟨hbc, hc, next, g, he, hr⟩ := fat_chain_cons h
    subst hbc
    rw [find_file_loop, if_neg hc]
    cases hb : find_file_block img (cur * bs) filename 0 (bs / DIR_ENTRY_SIZE) with
    | some e => exact ⟨some e, rfl⟩
    | none =>
      simp only
      rw [read_link_of_fat_entry he]
      exact ih g next fuel' hr (by simp at hf; omega)

/-- The walk of `write_entry` ends on a chain that reaches the terminator. -/
theorem write_entry_walk_returns (img : Image) (fs bs : Nat) (entry : List Nat) :
    ∀ (chain : List Nat) (fuelc cur fuel last : Nat),
      fat_chain img fs bs fuelc cur = some chain → chain.length < fuel →
      ∃ r, write_entry_walk img fs bs entry fuel cur last = some r := by
  intro chain
  induction chain with
  | nil =>
    intro fuelc cur fuel last h hf
    obtain ⟨fuel', rfl⟩ : ∃ f, fuel = f + 1 := ⟨fuel - 1, by simp at hf; omega⟩
    exact ⟨Sum.inr last, by rw [write_entry_walk, if_pos (fat_chain_nil h)]⟩
  | cons c rest ih =>
    intro fuelc cur fuel last h hf
    obtain ⟨fuel', rfl⟩ : ∃ f, fuel = f + 1 := ⟨fuel - 1, by simp at hf; omega⟩
    obtain ⟨hbc, hc, next, g, he, hr⟩ := fat_chain_cons h
    subst hbc
    rw [write_entry_walk, if_neg hc]
    cases hb : write_entry_block img (cur * bs) entry 0 (bs / DIR_ENTRY_SIZE) with
    | some img1 => exact ⟨Sum.inl img1, rfl⟩
    | none =>
      simp only
      rw [read_link_of_fat_entry he]
      exact ih g next fuel' cur hr (by simp at hf; omega)

/-- On a block linked to itself that holds no match, the walk of `find_file`
does not end, whatever the fuel. -/
theorem find_file_loop_self_link (img : Image) (fs bs c : Nat) (filename : List Nat)
    (hc : c ≠ FAT_EOF) (hself : read_link img fs bs c = c)
    (hno : find_file_block img (c * bs) filename 0 (bs / DIR_ENTRY_SIZE) = none) :
    ∀ fuel, find_file_loop img fs bs filename fuel c = none := by
  intro fuel
  induction fuel with
  | zero => rfl
  | succ fuel ih => rw [find_file_loop, if_neg hc, hno]; simp only; rw [hself, ih]

/-- On a block linked to itself the walk of `list_directory` does not end. -/
theorem list_directory_loop_self_link (img : Image) (fs bs c : Nat)
    (hc : c ≠ FAT_EOF) (hself : read_link img fs bs c = c) :
    ∀ fuel, list_directory_loop img fs bs fuel c = none := by
  intro fuel
  induction fuel with
  | zero => rfl
  | succ fuel ih => rw [list_directory_loop, if_neg hc, hself, ih]

/-- On a block linked to itself that has no free slot, the walk of
`write_entry` does not end. -/
theorem write_entry_walk_self_link (img : Image) (fs bs c : Nat) (entry : List Nat)
    (hc : c ≠ FAT_EOF) (hself : read_link img fs bs c = c)
    (hno : write_entry_block img (c * bs) entry 0 (bs / DIR_ENTRY_SIZE) = none) :
    ∀ fuel last, write_entry_walk img fs bs entry fuel c last = none := by
  intro fuel
  induction fuel with
  | zero => intro _; rfl
  | succ fuel ih =>
    intro last
    rw [write_entry_walk, if_neg hc, hno]; simp only; rw [hself, ih]

/-- C26: data transfer terminates even on a corrupt chain, a directory walk
only on a chain that ends.  For every image and every positive block size:
the loops of `copy_file` and `write_file` return within
`ceil(remaining/block_size)` rounds from any block and any state of the FAT
(the fuel counts the tests of the loop condition, one more than the rounds),
so that `copy_file` returns for every entry with a 32-bit size and
`write_file` for every source.  The chain walks of `find_file`,
`list_directory` and `write_entry` return when the chain from the start block
reaches the terminator, in an image of less than `2^32` bytes; on a block that
is linked to itself they do not return (`find_file` when the block holds no
match, `write_entry` when it has no free slot). -/
theorem transfer_loops_terminate (img : Image) (fat_start block_size : Nat)
    (hbs : 0 < block_size) :
    (∀ cur remaining out, ∃ r,
      copy_file_loop img fat_start block_size
        ((remaining + block_size - 1) / block_size + 1) cur remaining out = some r) ∧
    (∀ (img0 : Image) (src : List Nat) cur remaining, ∃ r,
      write_file_loop fat_start block_size
        ((remaining + block_size - 1) / block_size + 1) img0 src cur remaining = some r) ∧
    (∀ entry, entry_size entry < 4294967296 →
      ∃ out, copy_file img fat_start block_size entry = some out) ∧
    (∀ src first_block filesize, ∃ img1,
      write_file img src block_size first_block filesize fat_start = some img1) ∧
    (∀ fuel start chain filename entry, img.length < 4294967296 →
      fat_chain img fat_start block_size fuel start = some chain →
      (∃ r, find_file img start fat_start block_size filename = some r) ∧
      (∃ lines, list_directory img fat_start block_size start = some lines) ∧
      (∃ r, write_entry_walk img fat_start block_size entry loopBound start start = some r)) ∧
    (∀ c filename entry, c ≠ FAT_EOF → read_link img fat_start block_size c = c →
      list_directory img fat_start block_size c = none ∧
      (find_file_block img (c * block_size) filename 0 (block_size / 64) = none →
        find_file img c fat_start block_size filename = none) ∧
      ((∀ j, j < block_size / 64 → slot_free img block_size c j = false) →
        write_entry img c block_size fat_start entry = none)) := by
  have hceil : ∀ n, (n + block_size - 1) / block_size ≤ n := by
    intro n
    cases n with
    | zero =>
      rw [Nat.zero_add, Nat.div_eq_of_lt (by omega)]
    | succ m =>
      apply Nat.div_le_of_le_mul
      have : m ≤ block_size * m := Nat.le_mul_of_pos_left m hbs
      rw [Nat.mul_add, Nat.mul_one]
      omega
  refine ⟨?_, ?_, ?_, ?_, ?_, ?_⟩
  · intro cur remaining out
    exact copy_file_loop_returns img fat_start block_size hbs _ cur remaining out
      (Nat.lt_succ_self _)
  · intro img0 src cur remaining
    exact write_file_loop_returns fat_start block_size hbs _ img0 src cur remaining
      (Nat.lt_succ_self _)
  · intro entry hsize
    have := hceil (entry_size entry)
    exact copy_file_loop_returns img fat_start block_size hbs loopBound _ _ []
      (by unfold loopBound; omega)
  · intro src first_block filesize
    have := hceil filesize
    exact write_file_loop_returns fat_start block_size hbs _ img src first_block filesize
      (by unfold loopBound; omega)
  · intro fuel start chain filename entry hlen hchain
    have hcl := fat_chain_length_le hchain
    have hf : chain.length < loopBound := by unfold loopBound; omega
    refine ⟨find_file_loop_returns img fat_start block_size filename chain fuel start
      loopBound hchain hf, ?_, write_entry_walk_returns img fat_start block_size entry chain
      fuel start loopBound start hchain hf⟩
    obtain ⟨lines, h1, _⟩ := list_directory_loop_length img fat_start block_size chain fuel
      start loopBound hchain hf
    exact ⟨lines, h1⟩
  · intro c filename entry hc hself
    refine ⟨list_directory_loop_self_link img fat_start block_size c hc hself loopBound,
      ?_, ?_⟩
    · intro hno
      exact find_file_loop_self_link img fat_start block_size c filename hc hself hno
        loopBound
    · intro hfull
      have hno := write_entry_block_none img block_size c entry (block_size / DIR_ENTRY_SIZE) 0
        (fun j _ h2 => hfull j (by simpa [DIR_ENTRY_SIZE] using h2))
      unfold write_entry
      rw [write_entry_walk_self_link img fat_start block_size c entry hc hself hno]

set_option maxRecDepth 1000000 in
/-- Witness for C26 on the image whose block 3 is linked to itself: the
transfer loops return, the walks return on the root directory (chain of the
one block 2) and do not return from block 3. -/
theorem transfer_loops_terminate_witness :
    (∃ out, copy_file cycleImage 1 64 (raw_entry 3 3 1 200 [] [] []) = some out) ∧
    (∃ img1, write_file cycleImage (List.replicate 200 9) 64 3 200 1 = some img1) ∧
    (∃ r, find_file cycleImage 2 1 64 [121] = some r) ∧
    (∃ lines, list_directory cycleImage 1 64 2 = some lines) ∧
    list_directory cycleImage 1 64 3 = none ∧
    find_file cycleImage 3 1 64 [121] = none ∧
    write_entry cycleImage 3 64 1 (make_entry 4 7 1 0 [99] exampleTime) = none :=
  have h := transfer_loops_terminate cycleImage 1 64 (by decide)
  have hwalk := h.2.2.2.2.1 16 2 [2] [121] [] (by decide) (by decide)
  have hself := h.2.2.2.2.2 3 [121] (make_entry 4 7 1 0 [99] exampleTime) (by decide)
    (by decide)
  ⟨h.2.2.1 _ (by decide), h.2.2.2.1 _ _ _, hwalk.1, hwalk.2.1, hself.1,
    hself.2.1 (by decide), hself.2.2 (by decide)⟩

end FileSystem
